import Mathlib

/-!
Verification development for a fragment of a home-automation code base:
the MQTT discovery handler (`homeassistant/components/mqtt/discovery.py`)
and the Minut Point cloud integration
(`homeassistant/components/point/__init__.py`).

Python dicts are shallowly embedded as insertion-ordered association
lists (`List (K × V)`); Python dict assignment replaces the value in
place when the key is present and appends at the end otherwise, `pop`
removes the entry, matching CPython 3.7+ semantics.  JSON payload values
are embedded as the inductive `MqttVal`.  Strings are Lean `String`s;
where character-level reasoning is needed (the discovery topic regex,
space-splitting of discovery ids) we work on `List Char`.

The modules `mqtt/abbreviations.py`, `mqtt/schemas.py` and `mqtt/const.py`
are not part of the provided sources; the abbreviation maps
(`ABBREVIATIONS`, `DEVICE_ABBREVIATIONS`, `ORIGIN_ABBREVIATIONS`), the
`SHARED_OPTIONS` list and the `SUPPORTED_COMPONENTS` set are therefore
kept as parameters of the embedded functions, and the `CONF_*` string
constants are taken with the values the specification's vocabulary uses
("origin", "device", "availability", "topic", "platform", "components").
-/

set_option autoImplicit false

namespace HassCore

/-! ## Association-list embedding of Python dicts -/

universe u v

/-- First value stored under key `k` (Python `d[k]` / `d.get(k)`). -/
def aget {K : Type u} {V : Type v} [DecidableEq K] (k : K) : List (K × V) → Option V
  | [] => none
  | (k', v) :: t => if k' = k then some v else aget k t

/-- Python `d[k] = v`: replace in place when present, append otherwise. -/
def aset {K : Type u} {V : Type v} [DecidableEq K] (k : K) (v : V) : List (K × V) → List (K × V)
  | [] => [(k, v)]
  | (k', v') :: t => if k' = k then (k', v) :: t else (k', v') :: aset k v t

/-- Python `d.pop(k)`: the removed value (if any) and the remaining dict. -/
def apop {K : Type u} {V : Type v} [DecidableEq K] (k : K) :
    List (K × V) → Option V × List (K × V)
  | [] => (none, [])
  | (k', v) :: t =>
    if k' = k then (some v, t)
    else
      let r := apop k t
      (r.1, (k', v) :: r.2)

/-- Python `k in d`. -/
def ahas {K : Type u} {V : Type v} [DecidableEq K] (k : K) (d : List (K × V)) : Bool :=
  (aget k d).isSome

/-! ## Minut Point integration (`point/__init__.py`) -/

/-- Outcome of `auth.async_get_access_token()` in `async_setup_entry`:
success, an `aiohttp.ClientResponseError` with an HTTP status, or another
`aiohttp.ClientError`. -/
inductive TokenFetchResult where
  | ok
  | respError (status : Nat)
  | clientError
  deriving DecidableEq

/-- How `async_setup_entry` finishes: returning `True`, raising
`ConfigEntryAuthFailed`, or raising `ConfigEntryNotReady`. -/
inductive SetupResult where
  | success
  | authFailed
  | notReady
  deriving DecidableEq

/-- Embedding of `async_setup_entry` (point/__init__.py lines 114-148).
`hasAuthImplementation` is whether `"auth_implementation" in entry.data`;
`token` is the outcome of fetching the OAuth2 access token.  The host
calls after a successful token fetch (session construction, webhook
setup) are out of scope and modelled as succeeding. -/
def async_setup_entry (hasAuthImplementation : Bool) (token : TokenFetchResult) : SetupResult :=
  if !hasAuthImplementation then .authFailed
  else
    match token with
    | .respError status =>
      -- HTTPStatus.UNAUTHORIZED = 401, HTTPStatus.FORBIDDEN = 403.
      -- ClientResponseError is a subclass of ClientError and is caught first.
      if status = 401 || status = 403 then .authFailed else .notReady
    | .clientError => .notReady
    | .ok => .success

/-- The mutable fields of `MinutPointClient` that `_sync` touches. -/
structure PointState where
  known_homes : List String
  known_devices : List String
  is_available : Bool
  deriving DecidableEq

/-- Host-visible actions performed by `MinutPointClient._sync`. -/
inductive PointEffect where
  | warnUnavailable
  | signalUpdateEntity
  | forwardAlarm
  | forwardPlatforms
  | discoveryNew (platform : String) (device_id : String)
  deriving DecidableEq

/-- The `for home_id in self._client.homes` loop of `_sync`:
unknown homes trigger an alarm-panel platform forward and a discovery
signal and are added to the known set. -/
def sync_homes : List String → List String → List String × List PointEffect
  | known, [] => (known, [])
  | known, h :: rest =>
    if h ∈ known then sync_homes known rest
    else
      let r := sync_homes (known ++ [h]) rest
      (r.1, .forwardAlarm :: .discoveryNew "alarm_control_panel" h :: r.2)

/-- The `for device in self._client.devices` loop of `_sync`:
unknown devices trigger a platform forward and one discovery signal per
entry of `PLATFORMS = [BINARY_SENSOR, SENSOR]`. -/
def sync_devices : List String → List String → List String × List PointEffect
  | known, [] => (known, [])
  | known, d :: rest =>
    if d ∈ known then sync_devices known rest
    else
      let r := sync_devices (known ++ [d]) rest
      (r.1, .forwardPlatforms :: .discoveryNew "binary_sensor" d
              :: .discoveryNew "sensor" d :: r.2)

/-- Embedding of `MinutPointClient._sync` (point/__init__.py lines
227-257).  `update_ok` is the truth value of `await self._client.update()`;
`homes` and `devices` are the home and device ids the client reports. -/
def MinutPointClient_sync (st : PointState) (update_ok : Bool)
    (homes devices : List String) : PointState × List PointEffect :=
  if !update_ok then
    ({ st with is_available := false }, [.warnUnavailable, .signalUpdateEntity])
  else
    let rh := sync_homes st.known_homes homes
    let rd := sync_devices st.known_devices devices
    ({ known_homes := rh.1, known_devices := rd.1, is_available := true },
      rh.2 ++ rd.2 ++ [.signalUpdateEntity])

/-- Embedding of `MinutPointClient.is_available` (lines 263-267):
`device_ids` models `self._client.device_ids`. -/
def MinutPointClient_is_available (st : PointState) (device_ids : List String)
    (device_id : String) : Bool :=
  if !st.is_available then false else device_ids.contains device_id

/-! ## MQTT discovery payload values (`mqtt/discovery.py`) -/

/-- JSON-like values appearing in MQTT discovery payloads. -/
inductive MqttVal where
  | str (s : String)
  | num (n : Int)
  | bool (b : Bool)
  | null
  | arr (xs : List MqttVal)
  | obj (entries : List (String × MqttVal))

/-- A Python dict holding payload data (insertion ordered). -/
abbrev MqttDict := List (String × MqttVal)

/-- Python truthiness of a payload value (`if discovery_payload:` etc.). -/
def MqttVal.truthy : MqttVal → Bool
  | .str s => !(s == "")
  | .num n => !(n == 0)
  | .bool b => b
  | .null => false
  | .arr xs => !xs.isEmpty
  | .obj entries => !entries.isEmpty

/-- Python `s.endswith(pat)` (computable stand-in for `String.endsWith`). -/
def strEndsWith (s pat : String) : Bool := pat.toList.isSuffixOf s.toList

/-- One step of the loop in `_replace_abbreviations` (discovery.py lines
130-131): `payload[abbreviations[key]] = payload.pop(key)`. -/
def replace_abbrev_step (abbr : List (String × String)) (d : MqttDict) (k : String) : MqttDict :=
  match apop k d with
  | (some v, d') =>
    match aget k abbr with
    | some full => aset full v d'
    | none => d
  | (none, _) => d

/-- Embedding of `_replace_abbreviations` (discovery.py lines 121-131)
restricted to dict payloads.  The Python loop runs over
`abbreviations_set.intersection(payload)`, a set computed before the
loop whose iteration order is unspecified; we iterate the abbreviation
map's own key order filtered by presence in the original payload, one
deterministic refinement of that order. -/
def replace_abbreviations_dict (abbr : List (String × String)) (d : MqttDict) : MqttDict :=
  ((abbr.map Prod.fst).filter (fun k => ahas k d)).foldl (replace_abbrev_step abbr) d

/-- Embedding of `_replace_abbreviations` on an arbitrary payload value:
non-dict payloads are returned unchanged (`if not isinstance(payload, dict)`). -/
def replace_abbreviations (abbr : List (String × String)) : MqttVal → MqttVal
  | .obj d => .obj (replace_abbreviations_dict abbr d)
  | v => v

/-- Embedding of `_replace_all_abbreviations` (discovery.py lines
134-156) on a dict payload.  `A`, `O`, `D` are `ABBREVIATIONS`,
`ORIGIN_ABBREVIATIONS` and `DEVICE_ABBREVIATIONS` (the module defining
them is outside the provided sources, so they are parameters).  The
in-place mutation of the nested `origin` / `device` / availability
dicts is rendered as updating the value stored at the key; for the
availability entry, `cv.ensure_list` turns `None` into `[]`, keeps a
list, and wraps any other value in a one-element list whose element is
mutated in place, which is what the non-`arr` branch renders
(`replace_abbreviations` leaves non-dict elements unchanged). -/
def replace_origin_step (O : List (String × String)) (d : MqttDict) : MqttDict :=
  match aget "origin" d with
  | some ov => aset "origin" (replace_abbreviations O ov) d
  | none => d

def replace_device_step (D : List (String × String)) (d : MqttDict) : MqttDict :=
  match aget "device" d with
  | some dv => aset "device" (replace_abbreviations D dv) d
  | none => d

def replace_availability_step (A : List (String × String)) (d : MqttDict) : MqttDict :=
  match aget "availability" d with
  | some (MqttVal.arr xs) => aset "availability" (.arr (xs.map (replace_abbreviations A))) d
  | some av => aset "availability" (replace_abbreviations A av) d
  | none => d

def replace_all_abbreviations (A O D : List (String × String)) (d : MqttDict) : MqttDict :=
  replace_availability_step A (replace_device_step D (replace_origin_step O
    (replace_abbreviations_dict A d)))

/-- Embedding of `_merge_common_options` (discovery.py lines 256-263):
`shared` is the `SHARED_OPTIONS` list (its defining module is outside
the provided sources, so it is a parameter).  An option is copied from
the device config exactly when it is in `SHARED_OPTIONS`, present in
the device config and absent from the component config. -/
def merge_common_options (shared : List String)
    (component_config device_config : MqttDict) : MqttDict :=
  match shared with
  | [] => component_config
  | option :: rest =>
    let component_config :=
      if ahas option device_config && !ahas option component_config then
        match aget option device_config with
        | some v => aset option v component_config
        | none => component_config
      else component_config
    merge_common_options rest component_config device_config

/-- The per-entry rewrite of the `for key, value in discovery_payload.items()`
loop of `_replace_topic_base` (discovery.py lines 163-168).  Both `if`
branches test the original `value`, so when the original string both
starts and ends with `~` the second assignment overwrites the first and
the final value is `value[:-1] + base`. -/
def replace_topic_base_entry (base : String) (k : String) (v : MqttVal) : MqttVal :=
  match v with
  | .str s =>
    if !(s == "") then
      if s.back == '~' && strEndsWith k "topic" then .str (s.dropRight 1 ++ base)
      else if s.front == '~' && strEndsWith k "topic" then .str (base ++ s.drop 1)
      else .str s
    else .str s
  | v => v

/-- The availability part of `_replace_topic_base` (lines 169-177),
applied to one availability entry.  Non-dict entries are skipped.  When
the entry's `topic` value is not a string, Python applies `str()` to it
first; for `None`/numbers/lists/dicts/booleans the resulting text never
starts or ends with `~`, so those cases are no-ops and are rendered as
the identity. -/
def replace_topic_base_avail (base : String) : MqttVal → MqttVal
  | .obj conf =>
    .obj (match aget "topic" conf with
      | some (.str t) =>
        if t == "" then conf
        else if t.back == '~' then aset "topic" (.str (t.dropRight 1 ++ base)) conf
        else if t.front == '~' then aset "topic" (.str (base ++ t.drop 1)) conf
        else conf
      | _ => conf)
  | v => v

/-- Embedding of `_replace_topic_base` (discovery.py lines 159-177).
The function is only called when `TOPIC_BASE` (`~`) is a key of the
payload; `base` mirrors `discovery_payload.pop(TOPIC_BASE)` for a
string-valued topic base (non-string bases would be formatted with
`str()`; discovery payloads carry the base as a string).
`replace_topic_base_avail_step` is the `if discovery_payload.get(CONF_AVAILABILITY):`
block (lines 169-177) and `replace_topic_base` the whole function. -/
def replace_topic_base_avail_step (base : String) (d : MqttDict) : MqttDict :=
  match aget "availability" d with
  | some av =>
    if av.truthy then
      match av with
      | MqttVal.arr xs => aset "availability" (.arr (xs.map (replace_topic_base_avail base))) d
      | v => aset "availability" (replace_topic_base_avail base v) d
    else d
  | none => d

def replace_topic_base (d : MqttDict) : MqttDict :=
  let base := match aget "~" d with
    | some (.str b) => b
    | _ => ""
  replace_topic_base_avail_step base
    (((apop "~" d).2).map (fun kv => (kv.1, replace_topic_base_entry base kv.1 kv.2)))

/-! ## Device-based discovery processing (`async_discovery_message_received`) -/

/-- `MQTTDiscoveryPayload`: a dict payload plus the `device_discovery`
flag (class attribute, default `False`). -/
structure MQTTDiscoveryPayload where
  entries : MqttDict
  device_discovery : Bool

/-- `MqttComponentConfig` from `mqtt/models.py` (constructed at
discovery.py lines 356-363 and 385-387). -/
structure MqttComponentConfig where
  component : String
  object_id : String
  node_id : Option String
  discovery_payload : MQTTDiscoveryPayload

/-- One iteration of the `for component_id, config in component_configs.items()`
loop of the device-based discovery branch (discovery.py lines 333-363):
pop the platform, expand abbreviations, name the component by the topic
ids, and when the remaining config is non-empty wrap it with the device
config, the origin config and the unset shared options, marking it as
device discovery.  `none` models the `KeyError` raised when `platform`
is missing (the device discovery schema guarantees it is present and a
string). -/
def process_device_component (shared : List String) (A O D : List (String × String))
    (object_id : String) (node_id : Option String) (device_payload : MqttDict)
    (device_config : MqttVal) (origin_config : Option MqttVal)
    (component_id : String) (config : MqttDict) : Option MqttComponentConfig :=
  match apop "platform" config with
  | (some (MqttVal.str component), config2) =>
    let cfg := replace_all_abbreviations A O D config2
    -- The object_id in the device discovery topic is used as node_id for
    -- the components it contains; the component_id is used as object_id,
    -- extended with the topic's node_id when present.
    let component_object_id :=
      match node_id with
      | some n => n ++ " " ++ component_id
      | none => component_id
    let payload : MQTTDiscoveryPayload :=
      if cfg.isEmpty then ⟨[], false⟩
      else
        ⟨merge_common_options shared
            (aset "origin" (origin_config.getD MqttVal.null)
              (aset "device" device_config cfg)) device_payload,
          true⟩
    some ⟨component, component_object_id, some object_id, payload⟩
  | _ => none

/-- The whole device-based branch: reads the device config, the origin
config and the component configs out of the parsed device discovery
payload and processes each component.  `none` models the `KeyError` on
a missing `device`/`components` entry (schema-guaranteed present). -/
def process_device_components (shared : List String) (A O D : List (String × String))
    (object_id : String) (node_id : Option String)
    (device_discovery_payload : MqttDict) : Option (List MqttComponentConfig) :=
  match aget "device" device_discovery_payload,
      aget "components" device_discovery_payload with
  | some device_config, some (MqttVal.obj component_configs) =>
    component_configs.mapM (fun p =>
      match p.2 with
      | MqttVal.obj config =>
        process_device_component shared A O D object_id node_id
          device_discovery_payload device_config
          (aget "origin" device_discovery_payload) p.1 config
      | _ => none)
  | _, _ => none

/-! ## Device cleanup config (`_generate_device_cleanup_config`) -/

/-- Python `s.split(sep)` for a one-character separator, on `List Char`. -/
def splitChar (sep : Char) : List Char → List (List Char)
  | [] => [[]]
  | c :: t =>
    match splitChar sep t with
    | [] => [[c]]
    | h :: r => if c = sep then [] :: h :: r else (c :: h) :: r

/-- Python `sep.join(pieces)` for a one-character separator. -/
def joinChar (sep : Char) : List (List Char) → List Char
  | [] => []
  | [x] => x
  | x :: xs => x ++ sep :: joinChar sep xs

/-- `device_node_id` of `_generate_device_cleanup_config` (discovery.py
line 186): `f"{node_id} {object_id}" if node_id else object_id`. -/
def device_node_id_of (object_id : String) (node_id : Option String) : List Char :=
  match node_id with
  | some n => n.toList ++ ' ' :: object_id.toList
  | none => object_id.toList

/-- The `for platform, discover_id in mqtt_data.discovery_already_discovered`
loop of `_generate_device_cleanup_config` (lines 189-196), accumulating
into `comp_config`.  `discovery_already_discovered` is a Python set;
we iterate it in list order, one deterministic refinement of the
unspecified set order. -/
def cleanup_step (dn : List Char) (platform discover_id : String)
    (comp : MqttDict) : MqttDict :=
  match splitChar ' ' discover_id.toList with
  | [] => comp
  | first :: ids =>
    if ids.isEmpty then comp
    else if first = dn then
      aset (String.mk (joinChar ' ' ids))
        (MqttVal.obj [("platform", MqttVal.str platform)]) comp
    else comp

def cleanup_components :
    List (String × String) → List Char → MqttDict → MqttDict
  | [], _, comp => comp
  | (platform, discover_id) :: rest, dn, comp =>
    cleanup_components rest dn (cleanup_step dn platform discover_id comp)

/-- Embedding of `_generate_device_cleanup_config` (discovery.py lines
180-198): builds `{device: {}, components: comp_config}` and returns it
when `comp_config` is non-empty, else the empty dict. -/
def generate_device_cleanup_config (already : List (String × String))
    (object_id : String) (node_id : Option String) : MqttDict :=
  let comp := cleanup_components already (device_node_id_of object_id node_id) []
  if comp.isEmpty then []
  else [("device", MqttVal.obj []), ("components", MqttVal.obj comp)]

/-- The `payload == ""` branch of `_parse_device_payload` (discovery.py
lines 210-219): the returned dict and whether the warning was logged. -/
def parse_device_payload_empty (already : List (String × String))
    (object_id : String) (node_id : Option String) : MqttDict × Bool :=
  let c := generate_device_cleanup_config already object_id node_id
  (c, c.isEmpty)

/-- Rendering of claim C6's own wording, for comparison: an entry for
every discovered hash whose discovery id literally splits as
`<device node id> <component object id>`. -/
def spec_device_cleanup_components (already : List (String × String))
    (dn : List Char) : MqttDict :=
  match already with
  | [] => []
  | (platform, discover_id) :: rest =>
    let acc := spec_device_cleanup_components rest dn
    if (dn ++ [' ']).isPrefixOf discover_id.toList then
      aset (String.mk (discover_id.toList.drop (dn.length + 1)))
        (MqttVal.obj [("platform", MqttVal.str platform)]) acc
    else acc

/-! ## Discovery topic matching (`TOPIC_MATCHER`) -/

/-- Python regex `\w` (ASCII model; the `re` module is Unicode-aware,
discovery topics are ASCII in practice). -/
def isWordChar (c : Char) : Bool := c.isAlphanum || c = '_'

/-- The regex character class `[a-zA-Z0-9_-]` for node and object ids. -/
def isIdChar (c : Char) : Bool := c.isAlphanum || c = '_' || c = '-'

/-- The literal `config` of the topic regex. -/
def configChars : List Char := ['c', 'o', 'n', 'f', 'i', 'g']

/-- The literal `/config` of the topic regex. -/
def configLit : List Char := '/' :: configChars

/-- Backtracking-free rendering of the part
`(?:(?P<node_id>[a-zA-Z0-9_-]+)/)?(?P<object_id>[a-zA-Z0-9_-]+)/config`
of `TOPIC_MATCHER` (discovery.py lines 54-57) after the component and
its slash have been consumed.  The greedy optional node group is tried
first; each `+`-run is forced to be maximal because the character that
must follow it (`/`) is not in the class, so Python's backtracking
collapses to this direct function.  Like `re.match`, matching is
anchored only at the start: trailing input after `/config` is allowed. -/
def matchTail (r2 : List Char) : Option (Option (List Char) × List Char) :=
  let nid := r2.takeWhile isIdChar
  let r3 := r2.dropWhile isIdChar
  let nodeBranch : Option (Option (List Char) × List Char) :=
    if nid.isEmpty then none
    else
      match r3 with
      | c :: r4 =>
        if c = '/' then
          let oid := r4.takeWhile isIdChar
          let r5 := r4.dropWhile isIdChar
          if oid.isEmpty then none
          else if configLit.isPrefixOf r5 then some (some nid, oid)
          else none
        else none
      | [] => none
  match nodeBranch with
  | some res => some res
  | none =>
    if nid.isEmpty then none
    else if configLit.isPrefixOf r3 then some (none, nid) else none

/-- `TOPIC_MATCHER.match(topic_trimmed)`: the component group `\w+`
followed by `/`, then `matchTail`.  Returns the `(component, node_id,
object_id)` groups on success. -/
def topicMatch (s : List Char) :
    Option (List Char × Option (List Char) × List Char) :=
  let comp := s.takeWhile isWordChar
  if comp.isEmpty then none
  else
    match s.dropWhile isWordChar with
    | c :: r2 =>
      if c = '/' then (matchTail r2).map (fun p => (comp, p.1, p.2)) else none
    | [] => none

/-- What the head of `async_discovery_message_received` (discovery.py
lines 297-316) does with the trimmed topic: process the matched groups,
warn on an unmatched topic ending in `config`, or silently return. -/
inductive HandlerAction where
  | process (component : List Char) (node_id : Option (List Char)) (object_id : List Char)
  | warnIllegal
  | ignore
  deriving DecidableEq

/-- Python `topic.replace(pat, "", 1)`: drop the first occurrence. -/
def replaceFirst : List Char → List Char → List Char
  | s, pat =>
    if pat.isPrefixOf s then s.drop pat.length
    else
      match s with
      | [] => []
      | c :: t => c :: replaceFirst t pat

/-- The topic-dispatch head of `async_discovery_message_received`:
match the trimmed topic, else warn exactly when it ends in `config`. -/
def async_discovery_message_received_action (topic_trimmed : List Char) : HandlerAction :=
  match topicMatch topic_trimmed with
  | some (c, n, o) => .process c n o
  | none =>
    if configChars.isSuffixOf topic_trimmed then .warnIllegal else .ignore

/-- Rendering of claim C2's own wording, for comparison: the trimmed
topic matches `<component>/<object_id>/config` or
`<component>/<node_id>/<object_id>/config` as a whole, with the stated
character classes. -/
def specTopicShape (t : List Char) : Bool :=
  match splitChar '/' t with
  | [c, o, cfg] =>
    cfg == configChars && !c.isEmpty && c.all isWordChar && !o.isEmpty && o.all isIdChar
  | [c, n, o, cfg] =>
    cfg == configChars && !c.isEmpty && c.all isWordChar && !n.isEmpty &&
      n.all isIdChar && !o.isEmpty && o.all isIdChar
  | _ => false

/-! ## Discovery processing loop and pending queue (`async_start`) -/

/-- The parts of `mqtt_data` state that the discovery handler mutates:
`discovery_pending_discovered` (each entry's deque is a list whose head
is the left/newest end, `appendleft` is cons, `pop` takes the last
element), `discovery_already_discovered`, and `platforms_loaded`. -/
structure DiscoveryState where
  pending : List ((String × String) × List MQTTDiscoveryPayload)
  already : List (String × String)
  platforms_loaded : List String

/-- Host-visible actions of the discovery handler.  `processingPayload`
renders the `_LOGGER.debug("Process component discovery payload ...")`
at the top of `async_process_discovery_payload` (line 433), marking
each invocation; the `dispatch*` effects are `async_dispatcher_send`
calls, `subscribeDone`/`unsubscribeDone` the connect/unsub of the
`MQTT_DISCOVERY_DONE` signal, and `setupTask` the task created to load
the component's platform first. -/
inductive DiscoveryEffect where
  | warnUnsupported (component : String)
  | queuedUpdate (discovery_hash : String × String)
  | processingPayload (payload : MQTTDiscoveryPayload)
  | subscribeDone (discovery_hash : String × String)
  | setupTask (component : String) (payload : MQTTDiscoveryPayload)
  | dispatchUpdated (discovery_hash : String × String) (payload : MQTTDiscoveryPayload)
  | dispatchNew (discovery_hash : String × String) (payload : MQTTDiscoveryPayload)
  | dispatchDone (discovery_hash : String × String)
  | unsubscribeDone (discovery_hash : String × String)

/-- Truthiness of an `MQTTDiscoveryPayload` (a dict subclass). -/
def payload_truthy (p : MQTTDiscoveryPayload) : Bool := !p.entries.isEmpty

/-- `f"{node_id} {object_id}" if node_id else object_id` (line 403). -/
def discoveryId (node_id : Option String) (object_id : String) : String :=
  match node_id with
  | some n => n ++ " " ++ object_id
  | none => object_id

/-- The discovery hash of a component config (lines 391-404). -/
def component_hash (c : MqttComponentConfig) : String × String :=
  (c.component, discoveryId c.node_id c.object_id)

/-- Lines 399-400: replace the topic base when `TOPIC_BASE` is a key. -/
def payload_after_topic_base (c : MqttComponentConfig) : MQTTDiscoveryPayload :=
  if ahas "~" c.discovery_payload.entries then
    { c.discovery_payload with entries := replace_topic_base c.discovery_payload.entries }
  else c.discovery_payload

/-- Embedding of `async_process_discovery_payload` (discovery.py lines
427-480).  When the hash is new and the payload non-empty (or already
discovered), a pending entry with an empty deque is created and the
DONE signal subscribed; then either a platform-setup task is created
(the asynchronous `_async_component_setup` later records the component
as discovered), an update is dispatched, the component is added and a
new-component signal dispatched, or a DONE signal is dispatched (in the
last case no pending entry was created, so no `discovery_done` callback
is subscribed and the dispatch is a no-op). -/
def async_process_discovery_payload (st : DiscoveryState)
    (component discovery_id : String) (payload : MQTTDiscoveryPayload) :
    DiscoveryState × List DiscoveryEffect :=
  let hash := (component, discovery_id)
  let already := st.already.contains hash
  let createEntry := (already || payload_truthy payload) && !ahas hash st.pending
  let st1 := if createEntry then { st with pending := aset hash [] st.pending } else st
  let subEffs : List DiscoveryEffect :=
    if createEntry then [.subscribeDone hash] else []
  if !st1.platforms_loaded.contains component && payload_truthy payload then
    (st1, .processingPayload payload :: subEffs ++ [.setupTask component payload])
  else if already then
    (st1, .processingPayload payload :: subEffs ++ [.dispatchUpdated hash payload])
  else if payload_truthy payload then
    ({ st1 with already := st1.already ++ [hash] },
      .processingPayload payload :: subEffs ++ [.dispatchNew hash payload])
  else
    (st1, .processingPayload payload :: subEffs ++ [.dispatchDone hash])

/-- Embedding of the `discovery_done` callback (discovery.py lines
442-460) for one delivery of the `MQTT_DISCOVERY_DONE` signal: with an
empty deque the entry is unsubscribed and removed; otherwise exactly
one payload is popped from the right (the oldest) and processed.  When
the entry is absent the callback is already unsubscribed and the signal
reaches no one. -/
def discovery_done (st : DiscoveryState) (component discovery_id : String) :
    DiscoveryState × List DiscoveryEffect :=
  let hash := (component, discovery_id)
  match aget hash st.pending with
  | none => (st, [])
  | some pending =>
    if pending.isEmpty then
      ({ st with pending := (apop hash st.pending).2 }, [.unsubscribeDone hash])
    else
      match pending.getLast? with
      | some payload =>
        async_process_discovery_payload
          { st with pending := aset hash pending.dropLast st.pending }
          component discovery_id payload
      | none => (st, [])

/-- Embedding of the `for component_config in discovered_components`
loop (discovery.py lines 390-425).  `supported` is
`SUPPORTED_COMPONENTS` (its defining module is outside the provided
sources, so it is a parameter).  The returned `Bool` is `true` when the
loop returned early — either warning about an unsupported component or
queueing an update for a pending hash (both `return`, not `continue`).
The `setattr(discovery_payload, "discovery_data", ...)` of lines
406-413 attaches metadata and is not modelled. -/
def process_discovered_components (supported : List String) :
    DiscoveryState → List MqttComponentConfig →
      DiscoveryState × List DiscoveryEffect × Bool
  | st, [] => (st, [], false)
  | st, c :: rest =>
    if !supported.contains c.component then
      (st, [DiscoveryEffect.warnUnsupported c.component], true)
    else
      let payload := payload_after_topic_base c
      match aget (component_hash c) st.pending with
      | some pending =>
        ({ st with pending := aset (component_hash c) (payload :: pending) st.pending },
          [DiscoveryEffect.queuedUpdate (component_hash c)], true)
      | none =>
        let r := async_process_discovery_payload st c.component
          (discoveryId c.node_id c.object_id) payload
        let r2 := process_discovered_components supported r.1 rest
        (r2.1, r.2 ++ r2.2.1, r2.2.2)

/-- Events of the single-hash pending-queue view used for the FIFO
statement: a discovery message received for the hash, or one delivery
of its `MQTT_DISCOVERY_DONE` signal. -/
inductive PendingEvent (P : Type u) where
  | receive (p : P)
  | done

/-- Abstract single-hash run of the pending deque (`some q` = an entry
exists with deque `q`, head = newest): `receive` while pending conses
(`appendleft`); `done` pops the last element (the oldest) or removes
the entry when the deque is empty.  Returns the final entry state, the
payloads processed from the queue in order, and the payloads queued
while the entry existed, in arrival order. -/
def runPendingQueue {P : Type u} :
    Option (List P) → List (PendingEvent P) → Option (List P) × List P × List P
  | st, [] => (st, [], [])
  | some q, .receive p :: evs =>
    let r := runPendingQueue (some (p :: q)) evs
    (r.1, r.2.1, p :: r.2.2)
  | none, .receive _ :: evs => runPendingQueue none evs
  | some q, .done :: evs =>
    if q.isEmpty then runPendingQueue none evs
    else
      match q.getLast? with
      | some p =>
        let r := runPendingQueue (some q.dropLast) evs
        (r.1, p :: r.2.1, r.2.2)
      | none => runPendingQueue (some q) evs
  | none, .done :: evs => runPendingQueue none evs

/-- The deque stored in an entry state (`[]` when the entry is gone). -/
def queueOf {P : Type u} : Option (List P) → List P
  | some q => q
  | none => []

/-! ## Theorems -/

theorem sync_homes_mem_fst (known homes : List String) (h : String) :
    h ∈ (sync_homes known homes).1 ↔ h ∈ known ∨ h ∈ homes := by
  induction homes generalizing known with
  | nil => simp [sync_homes]
  | cons h0 rest ih =>
    by_cases hk : h0 ∈ known
    · rw [sync_homes, if_pos hk, ih]
      constructor
      · rintro (hh | hh)
        · exact Or.inl hh
        · exact Or.inr (List.mem_cons_of_mem _ hh)
      · rintro (hh | hh)
        · exact Or.inl hh
        · rcases List.mem_cons.mp hh with rfl | hh
          · exact Or.inl hk
          · exact Or.inr hh
    · rw [sync_homes, if_neg hk]
      simp only [ih, List.mem_append, List.mem_singleton, List.mem_cons]
      tauto

theorem aget_aset_self {K : Type u} {V : Type v} [DecidableEq K] (k : K) (v : V)
    (d : List (K × V)) : aget k (aset k v d) = some v := by
  induction d with
  | nil => simp [aget, aset]
  | cons kv t ih =>
    obtain ⟨k', v'⟩ := kv
    by_cases hk : k' = k
    · simp [aset, aget, hk]
    · simp [aset, aget, hk, ih]

theorem aget_aset_of_ne {K : Type u} {V : Type v} [DecidableEq K] {k k' : K} (v : V)
    (d : List (K × V)) (hne : k ≠ k') : aget k (aset k' v d) = aget k d := by
  induction d with
  | nil => simp [aget, aset, Ne.symm hne]
  | cons kv t ih =>
    obtain ⟨k0, v0⟩ := kv
    by_cases hk : k0 = k'
    · subst hk
      simp [aset, aget, Ne.symm hne]
    · by_cases hk0 : k0 = k
      · subst hk0
        simp [aset, aget, hk, hne]
      · simp [aset, aget, hk, hk0, ih]

theorem apop_fst {K : Type u} {V : Type v} [DecidableEq K] (k : K) (d : List (K × V)) :
    (apop k d).1 = aget k d := by
  induction d with
  | nil => simp [aget, apop]
  | cons kv t ih =>
    obtain ⟨k0, v0⟩ := kv
    by_cases hk : k0 = k
    · simp [apop, aget, hk]
    · simp [apop, aget, hk, ih]

theorem aget_apop_of_ne {K : Type u} {V : Type v} [DecidableEq K] {k k' : K}
    (d : List (K × V)) (hne : k ≠ k') : aget k ((apop k' d).2) = aget k d := by
  induction d with
  | nil => simp [aget, apop]
  | cons kv t ih =>
    obtain ⟨k0, v0⟩ := kv
    by_cases hk : k0 = k'
    · subst hk
      simp [apop, aget, Ne.symm hne]
    · by_cases hk0 : k0 = k
      · subst hk0
        simp [apop, aget, hk, hne]
      · simp [apop, aget, hk, hk0, ih]

theorem ahas_aset_or {K : Type u} {V : Type v} [DecidableEq K] {k k' : K} {v : V}
    {d : List (K × V)} (h : ahas k (aset k' v d) = true) : k = k' ∨ ahas k d = true := by
  by_cases hk : k = k'
  · exact Or.inl hk
  · rw [ahas, aget_aset_of_ne _ _ hk] at h
    exact Or.inr h

theorem aget_eq_none_of_not_mem_keys {K : Type u} {V : Type v} [DecidableEq K] {k : K}
    {d : List (K × V)} (h : k ∉ d.map Prod.fst) : aget k d = none := by
  induction d with
  | nil => rfl
  | cons kv t ih =>
    obtain ⟨k0, v0⟩ := kv
    simp only [List.map_cons, List.mem_cons, not_or] at h
    rw [aget, if_neg (fun hc => h.1 hc.symm)]
    exact ih h.2

theorem ahas_apop_self_of_nodup {K : Type u} {V : Type v} [DecidableEq K] (k : K)
    (d : List (K × V)) (hnd : (d.map Prod.fst).Nodup) : ahas k ((apop k d).2) = false := by
  induction d with
  | nil => simp [ahas, aget, apop]
  | cons kv t ih =>
    obtain ⟨k0, v0⟩ := kv
    simp only [List.map_cons, List.nodup_cons] at hnd
    by_cases hk : k0 = k
    · subst hk
      have h0 : aget k0 t = none := aget_eq_none_of_not_mem_keys hnd.1
      simp [apop, ahas, h0]
    · simp only [apop, if_neg hk]
      rw [ahas, aget, if_neg hk]
      exact ih hnd.2

theorem aget_map_entry {K : Type u} {V W : Type v} [DecidableEq K] (f : K → V → W)
    (k : K) (d : List (K × V)) :
    aget k (d.map (fun kv => (kv.1, f kv.1 kv.2))) = (aget k d).map (f k) := by
  induction d with
  | nil => simp [aget]
  | cons kv t ih =>
    obtain ⟨k0, v0⟩ := kv
    by_cases hk : k0 = k
    · subst hk
      simp [aget]
    · simp [aget, hk, ih]

theorem merge_common_options_preserves (shared : List String)
    (component_config device_config : MqttDict) (k : String)
    (h : ahas k component_config = true) :
    aget k (merge_common_options shared component_config device_config) =
      aget k component_config := by
  induction shared generalizing component_config with
  | nil => rfl
  | cons opt rest ih =>
    rw [merge_common_options]
    by_cases hg : (ahas opt device_config && !ahas opt component_config) = true
    · obtain ⟨hdev, hnc⟩ : ahas opt device_config = true ∧ ahas opt component_config = false := by
        simpa using hg
      have hkne : k ≠ opt := by
        intro he
        rw [he, hnc] at h
        cases h
      obtain ⟨v, hv⟩ := Option.isSome_iff_exists.mp (hdev : (aget opt device_config).isSome = true)
      simp only [hg, if_true, hv]
      rw [ih (aset opt v component_config)
        (by rw [ahas, aget_aset_of_ne _ _ hkne]; exact h)]
      exact aget_aset_of_ne _ _ hkne
    · simp only [hg, if_false]
      exact ih component_config h

theorem merge_common_options_copies (shared : List String)
    (component_config device_config : MqttDict) (k : String)
    (hk : k ∈ shared) (hdev : ahas k device_config = true)
    (hcomp : ahas k component_config = false) :
    aget k (merge_common_options shared component_config device_config) =
      aget k device_config := by
  induction shared generalizing component_config with
  | nil => cases hk
  | cons opt rest ih =>
    rw [merge_common_options]
    by_cases he : k = opt
    · subst he
      have hg : (ahas k device_config && !ahas k component_config) = true := by
        rw [hdev, hcomp]
        rfl
      obtain ⟨v, hv⟩ := Option.isSome_iff_exists.mp (hdev : (aget k device_config).isSome = true)
      simp only [hg, if_true, hv]
      rw [merge_common_options_preserves rest _ _ k
        (by rw [ahas, aget_aset_self]; rfl)]
      rw [aget_aset_self]
    · have hk' : k ∈ rest := by
        rcases List.mem_cons.mp hk with hc | hc
        · exact absurd hc he
        · exact hc
      by_cases hg : (ahas opt device_config && !ahas opt component_config) = true
      · obtain ⟨hdev2, hnc2⟩ : ahas opt device_config = true ∧ ahas opt component_config = false := by
          simpa using hg
        obtain ⟨v, hv⟩ := Option.isSome_iff_exists.mp
          (hdev2 : (aget opt device_config).isSome = true)
        simp only [hg, if_true, hv]
        exact ih _ hk' (by rw [ahas, aget_aset_of_ne _ _ he]; exact hcomp)
      · simp only [hg, if_false]
        exact ih _ hk' hcomp

theorem merge_common_options_no_extra (shared : List String)
    (component_config device_config : MqttDict) (k : String)
    (h : ahas k (merge_common_options shared component_config device_config) = true) :
    ahas k component_config = true ∨ (k ∈ shared ∧ ahas k device_config = true) := by
  induction shared generalizing component_config with
  | nil => exact Or.inl h
  | cons opt rest ih =>
    rw [merge_common_options] at h
    by_cases hg : (ahas opt device_config && !ahas opt component_config) = true
    · obtain ⟨hdev, hnc⟩ : ahas opt device_config = true ∧ ahas opt component_config = false := by
        simpa using hg
      obtain ⟨v, hv⟩ := Option.isSome_iff_exists.mp (hdev : (aget opt device_config).isSome = true)
      simp only [hg, if_true, hv] at h
      rcases ih _ h with hc | ⟨hmem, hdev2⟩
      · rcases ahas_aset_or hc with rfl | hc
        · exact Or.inr ⟨List.mem_cons_self _ _, hdev⟩
        · exact Or.inl hc
      · exact Or.inr ⟨List.mem_cons_of_mem _ hmem, hdev2⟩
    · simp only [hg, if_false] at h
      rcases ih _ h with hc | ⟨hmem, hdev2⟩
      · exact Or.inl hc
      · exact Or.inr ⟨List.mem_cons_of_mem _ hmem, hdev2⟩

theorem aget_avail_step_of_ne (base : String) (d : MqttDict) {k : String}
    (hk : k ≠ "availability") :
    aget k (replace_topic_base_avail_step base d) = aget k d := by
  rw [replace_topic_base_avail_step]
  cases hx : aget "availability" d with
  | none => rfl
  | some av =>
    by_cases ht : av.truthy = true
    · cases av <;> simp only [ht, if_true] <;> exact aget_aset_of_ne _ _ hk
    · simp only [Bool.not_eq_true] at ht
      simp only [ht, Bool.false_eq_true, if_false]

theorem replace_topic_base_unfold (d : MqttDict) (base : String)
    (hb : aget "~" d = some (MqttVal.str base)) :
    replace_topic_base d =
      replace_topic_base_avail_step base
        (((apop "~" d).2).map (fun kv => (kv.1, replace_topic_base_entry base kv.1 kv.2))) := by
  rw [replace_topic_base, hb]

/-- C9: `_replace_topic_base` removes the `~` key; a key ending in
`topic` whose non-empty string value starts with `~` but does not end
with `~` has the leading `~` replaced by the base; a value of length at
least two that both starts and ends with `~` ends up as the original
value with only the trailing `~` replaced by the base (`value[:-1] + base`),
the leading substitution being overwritten because the second branch
re-reads the original value. -/
theorem mqtt_topic_base_replacement :
    ∀ (d : MqttDict) (base : String),
      aget "~" d = some (MqttVal.str base) →
      (((d.map Prod.fst).Nodup → ahas "~" (replace_topic_base d) = false) ∧
        (∀ k s, aget k d = some (MqttVal.str s) → strEndsWith k "topic" = true →
          s ≠ "" → s.front = '~' → s.back ≠ '~' →
          aget k (replace_topic_base d) = some (MqttVal.str (base ++ s.drop 1))) ∧
        (∀ k s, aget k d = some (MqttVal.str s) → strEndsWith k "topic" = true →
          2 ≤ s.length → s.front = '~' → s.back = '~' →
          aget k (replace_topic_base d) = some (MqttVal.str (s.dropRight 1 ++ base)))) := by
  intro d base hb
  rw [replace_topic_base_unfold d base hb]
  refine ⟨?_, ?_, ?_⟩
  · intro hnd
    have h2 := ahas_apop_self_of_nodup "~" d hnd
    rw [ahas] at h2 ⊢
    rw [aget_avail_step_of_ne _ _ (by decide), aget_map_entry]
    cases hx : aget "~" (apop "~" d).2 with
    | none => rfl
    | some v =>
      rw [hx] at h2
      simp at h2
  · intro k s hks hkend hsne hfront hback
    have hkt : k ≠ "~" := by
      intro he
      subst he
      exact absurd hkend (by decide)
    have hkav : k ≠ "availability" := by
      intro he
      subst he
      exact absurd hkend (by decide)
    rw [aget_avail_step_of_ne _ _ hkav, aget_map_entry, aget_apop_of_ne _ hkt, hks]
    simp [replace_topic_base_entry, hsne, hfront, hback, hkend]
  · intro k s hks hkend hslen hfront hback
    have hsne : s ≠ "" := by
      intro he
      subst he
      simp at hslen
    have hkt : k ≠ "~" := by
      intro he
      subst he
      exact absurd hkend (by decide)
    have hkav : k ≠ "availability" := by
      intro he
      subst he
      exact absurd hkend (by decide)
    rw [aget_avail_step_of_ne _ _ hkav, aget_map_entry, aget_apop_of_ne _ hkt, hks]
    simp [replace_topic_base_entry, hsne, hback, hkend]

/-- Closed instance of `mqtt_topic_base_replacement` on a concrete
payload with base `base/`: `~st` becomes `base/st`, `~x~` becomes
`~xbase/` (trailing substitution wins), and the `~` key is gone. -/
theorem mqtt_topic_base_replacement_witness :
    aget "state_topic"
        (replace_topic_base
          [("~", MqttVal.str "base/"), ("state_topic", MqttVal.str "~st"),
            ("cmd_topic", MqttVal.str "~x~")]) = some (MqttVal.str "base/st") ∧
      aget "cmd_topic"
        (replace_topic_base
          [("~", MqttVal.str "base/"), ("state_topic", MqttVal.str "~st"),
            ("cmd_topic", MqttVal.str "~x~")]) = some (MqttVal.str "~xbase/") ∧
      ahas "~"
        (replace_topic_base
          [("~", MqttVal.str "base/"), ("state_topic", MqttVal.str "~st"),
            ("cmd_topic", MqttVal.str "~x~")]) = false :=
  ⟨((mqtt_topic_base_replacement
        [("~", MqttVal.str "base/"), ("state_topic", MqttVal.str "~st"),
          ("cmd_topic", MqttVal.str "~x~")] "base/" rfl).2.1 "state_topic" "~st" rfl
      (by decide) (by decide) (by decide) (by decide)).trans
      (congrArg (fun t => some (MqttVal.str t)) (by decide)),
    ((mqtt_topic_base_replacement
        [("~", MqttVal.str "base/"), ("state_topic", MqttVal.str "~st"),
          ("cmd_topic", MqttVal.str "~x~")] "base/" rfl).2.2 "cmd_topic" "~x~" rfl
      (by decide) (by decide) (by decide) (by decide)).trans
      (congrArg (fun t => some (MqttVal.str t)) (by decide)),
    (mqtt_topic_base_replacement
        [("~", MqttVal.str "base/"), ("state_topic", MqttVal.str "~st"),
          ("cmd_topic", MqttVal.str "~x~")] "base/" rfl).1 (by decide)⟩

theorem aget_some_mem {K : Type u} {V : Type v} [DecidableEq K] {k : K} {v : V}
    {d : List (K × V)} (h : aget k d = some v) : (k, v) ∈ d := by
  induction d with
  | nil => cases h
  | cons kv t ih =>
    obtain ⟨k0, v0⟩ := kv
    by_cases hk : k0 = k
    · subst hk
      rw [aget, if_pos rfl] at h
      exact (Option.some.inj h) ▸ List.mem_cons_self _ _
    · rw [aget, if_neg hk] at h
      exact List.mem_cons_of_mem _ (ih h)

theorem aget_isSome_of_mem_keys {K : Type u} {V : Type v} [DecidableEq K] {k : K}
    {d : List (K × V)} (h : k ∈ d.map Prod.fst) : (aget k d).isSome = true := by
  induction d with
  | nil => cases h
  | cons kv t ih =>
    obtain ⟨k0, v0⟩ := kv
    by_cases hk : k0 = k
    · simp [aget, hk]
    · rw [aget, if_neg hk]
      rcases List.mem_cons.mp h with he | h2
      · exact absurd he.symm hk
      · exact ih h2

theorem mem_keys_of_aget_some {K : Type u} {V : Type v} [DecidableEq K] {k : K} {v : V}
    {d : List (K × V)} (h : aget k d = some v) : k ∈ d.map Prod.fst :=
  List.mem_map.mpr ⟨(k, v), aget_some_mem h, rfl⟩

theorem aget_eq_none_of_ahas_false {K : Type u} {V : Type v} [DecidableEq K] {k : K}
    {d : List (K × V)} (h : ahas k d = false) : aget k d = none := by
  rw [ahas] at h
  cases hx : aget k d with
  | none => rfl
  | some v => rw [hx] at h; cases h

theorem mem_keys_apop {K : Type u} {V : Type v} [DecidableEq K] {k1 k2 : K}
    {d : List (K × V)} (h : k1 ∈ ((apop k2 d).2).map Prod.fst) : k1 ∈ d.map Prod.fst := by
  induction d with
  | nil => cases h
  | cons kv t ih =>
    obtain ⟨k0, v0⟩ := kv
    by_cases hk : k0 = k2
    · rw [apop, if_pos hk] at h
      exact List.mem_cons_of_mem _ h
    · rw [apop, if_neg hk] at h
      rcases List.mem_cons.mp h with he | h2
      · exact he ▸ List.mem_cons_self _ _
      · exact List.mem_cons_of_mem _ (ih h2)

theorem ahas_apop_to_ahas {K : Type u} {V : Type v} [DecidableEq K] {k1 k2 : K}
    {d : List (K × V)} (h : ahas k1 ((apop k2 d).2) = true) : ahas k1 d = true := by
  obtain ⟨v, hv⟩ := Option.isSome_iff_exists.mp h
  exact aget_isSome_of_mem_keys (mem_keys_apop (mem_keys_of_aget_some hv))

theorem mem_keys_aset {K : Type u} {V : Type v} [DecidableEq K] {k1 k : K} {v : V}
    {d : List (K × V)} (h : k1 ∈ (aset k v d).map Prod.fst) : k1 = k ∨ k1 ∈ d.map Prod.fst := by
  induction d with
  | nil =>
    rw [aset] at h
    rcases List.mem_cons.mp h with he | h2
    · exact Or.inl he
    · cases h2
  | cons kv t ih =>
    obtain ⟨k0, v0⟩ := kv
    by_cases hk : k0 = k
    · rw [aset, if_pos hk] at h
      exact Or.inr h
    · rw [aset, if_neg hk] at h
      rcases List.mem_cons.mp h with he | h2
      · exact Or.inr (he ▸ List.mem_cons_self _ _)
      · rcases ih h2 with he | h3
        · exact Or.inl he
        · exact Or.inr (List.mem_cons_of_mem _ h3)

theorem nodup_keys_apop {K : Type u} {V : Type v} [DecidableEq K] (k : K)
    (d : List (K × V)) (h : (d.map Prod.fst).Nodup) :
    (((apop k d).2).map Prod.fst).Nodup := by
  induction d with
  | nil => simp [apop]
  | cons kv t ih =>
    obtain ⟨k0, v0⟩ := kv
    simp only [List.map_cons, List.nodup_cons] at h
    by_cases hk : k0 = k
    · rw [apop, if_pos hk]
      exact h.2
    · rw [apop, if_neg hk]
      simp only [List.map_cons, List.nodup_cons]
      exact ⟨fun hc => h.1 (mem_keys_apop hc), ih h.2⟩

theorem nodup_keys_aset_fresh {K : Type u} {V : Type v} [DecidableEq K] {k : K} (v : V)
    {d : List (K × V)} (hnd : (d.map Prod.fst).Nodup) (hfresh : ahas k d = false) :
    ((aset k v d).map Prod.fst).Nodup := by
  induction d with
  | nil => simp [aset]
  | cons kv t ih =>
    obtain ⟨k0, v0⟩ := kv
    simp only [List.map_cons, List.nodup_cons] at hnd
    have hk : ¬k0 = k := by
      intro he
      rw [ahas, aget, if_pos he] at hfresh
      cases hfresh
    have hfresh2 : ahas k t = false := by
      rw [ahas, aget, if_neg hk] at hfresh
      exact hfresh
    rw [aset, if_neg hk]
    simp only [List.map_cons, List.nodup_cons]
    refine ⟨fun hc => ?_, ih hnd.2 hfresh2⟩
    rcases mem_keys_aset hc with he | h2
    · exact hk he
    · exact hnd.1 h2

theorem abbrev_fold_spec (abbr : List (String × String)) (d0 : MqttDict)
    (_H1 : (d0.map Prod.fst).Nodup)
    (H2 : ∀ p ∈ abbr, ahas p.1 d0 = true → ahas p.2 d0 = false)
    (H3 : List.Pairwise
      (fun p q => p.1 = q.1 ∨ ahas p.1 d0 = false ∨ ahas q.1 d0 = false ∨ p.2 ≠ q.2) abbr) :
    ∀ (ks : List String) (acc : MqttDict),
      ks.Nodup →
      (∀ k ∈ ks, ahas k d0 = true) →
      (∀ k ∈ ks, (aget k abbr).isSome = true) →
      (∀ k ∈ ks, aget k acc = aget k d0) →
      (∀ k ∈ ks, ∀ full, aget k abbr = some full → aget full acc = none) →
      (acc.map Prod.fst).Nodup →
      ((∀ k, k ∉ ks →
          (∀ k' ∈ ks, ∀ full', aget k' abbr = some full' → k ≠ full') →
          aget k (List.foldl (replace_abbrev_step abbr) acc ks) = aget k acc) ∧
        (∀ k ∈ ks, ∀ full, aget k abbr = some full →
          aget full (List.foldl (replace_abbrev_step abbr) acc ks) = aget k d0 ∧
          aget k (List.foldl (replace_abbrev_step abbr) acc ks) = none) ∧
        (∀ k, ahas k (List.foldl (replace_abbrev_step abbr) acc ks) = true →
          ahas k acc = true ∨ ∃ k' ∈ ks, aget k' abbr = some k)) := by
  have H2' : ∀ k full, aget k abbr = some full → ahas k d0 = true → ahas full d0 = false :=
    fun k full h hk => H2 (k, full) (aget_some_mem h) hk
  have H3' : ∀ k1 k2 f1 f2, aget k1 abbr = some f1 → aget k2 abbr = some f2 →
      ahas k1 d0 = true → ahas k2 d0 = true → k1 ≠ k2 → f1 ≠ f2 := by
    intro k1 k2 f1 f2 h1 h2 ha1 ha2 hne
    have hsymm : Symmetric
        (fun (p q : String × String) =>
          p.1 = q.1 ∨ ahas p.1 d0 = false ∨ ahas q.1 d0 = false ∨ p.2 ≠ q.2) := by
      intro p q h
      rcases h with h | h | h | h
      · exact Or.inl h.symm
      · exact Or.inr (Or.inr (Or.inl h))
      · exact Or.inr (Or.inl h)
      · exact Or.inr (Or.inr (Or.inr (Ne.symm h)))
    have hpair : ((k1, f1) : String × String) ≠ (k2, f2) :=
      fun h => hne (congrArg Prod.fst h)
    rcases H3.forall hsymm (aget_some_mem h1) (aget_some_mem h2) hpair with h | h | h | h
    · exact absurd h hne
    · exact absurd ha1 (by rw [h]; exact fun hc => Bool.noConfusion hc)
    · exact absurd ha2 (by rw [h]; exact fun hc => Bool.noConfusion hc)
    · exact h
  intro ks
  induction ks with
  | nil =>
    intro acc _ _ _ _ _ _
    exact ⟨fun k _ _ => rfl, fun k hk => absurd hk (List.not_mem_nil k),
      fun k h => Or.inl h⟩
  | cons k0 rest ih =>
    intro acc hnd hhas hsome hacc hfresh haccnd
    simp only [List.nodup_cons] at hnd
    have hk0d0 : ahas k0 d0 = true := hhas k0 (List.mem_cons_self _ _)
    obtain ⟨full0, hfull0⟩ :=
      Option.isSome_iff_exists.mp (hsome k0 (List.mem_cons_self _ _))
    have hk0acc : aget k0 acc = aget k0 d0 := hacc k0 (List.mem_cons_self _ _)
    obtain ⟨v0, hv0⟩ : ∃ v, aget k0 acc = some v := by
      refine Option.isSome_iff_exists.mp ?_
      rw [hk0acc]
      exact hk0d0
    have hfull0_nd0 : ahas full0 d0 = false := H2' k0 full0 hfull0 hk0d0
    have hk0_ne_full0 : k0 ≠ full0 := by
      intro he
      exact Bool.noConfusion (hfull0_nd0.symm.trans (he ▸ hk0d0))
    have hstep : replace_abbrev_step abbr acc k0 = aset full0 v0 (apop k0 acc).2 := by
      have h1 : apop k0 acc = (some v0, (apop k0 acc).2) :=
        Prod.ext (by rw [apop_fst, hv0]) rfl
      rw [replace_abbrev_step, h1, hfull0]
    have hfresh0 : aget full0 acc = none :=
      hfresh k0 (List.mem_cons_self _ _) full0 hfull0
    have hacc' : ∀ k ∈ rest, aget k (aset full0 v0 (apop k0 acc).2) = aget k d0 := by
      intro k hk
      have hkd0 : ahas k d0 = true := hhas k (List.mem_cons_of_mem _ hk)
      have hkne0 : k ≠ k0 := fun he => hnd.1 (he ▸ hk)
      have hknefull : k ≠ full0 := by
        intro he
        exact Bool.noConfusion (hfull0_nd0.symm.trans (he ▸ hkd0))
      rw [aget_aset_of_ne _ _ hknefull, aget_apop_of_ne _ hkne0]
      exact hacc k (List.mem_cons_of_mem _ hk)
    have hfresh' : ∀ k ∈ rest, ∀ full, aget k abbr = some full →
        aget full (aset full0 v0 (apop k0 acc).2) = none := by
      intro k hk full hf
      have hkd0 : ahas k d0 = true := hhas k (List.mem_cons_of_mem _ hk)
      have hkne0 : k ≠ k0 := fun he => hnd.1 (he ▸ hk)
      have hfullnd0 : ahas full d0 = false := H2' k full hf hkd0
      have hfne : full ≠ full0 := H3' k k0 full full0 hf hfull0 hkd0 hk0d0 hkne0
      have hfnek0 : full ≠ k0 := by
        intro he
        exact Bool.noConfusion (hfullnd0.symm.trans (he ▸ hk0d0))
      rw [aget_aset_of_ne _ _ hfne, aget_apop_of_ne _ hfnek0]
      exact hfresh k (List.mem_cons_of_mem _ hk) full hf
    have haccnd' : ((aset full0 v0 (apop k0 acc).2).map Prod.fst).Nodup := by
      refine nodup_keys_aset_fresh _ (nodup_keys_apop _ _ haccnd) ?_
      cases hx : ahas full0 (apop k0 acc).2 with
      | false => rfl
      | true =>
        have := ahas_apop_to_ahas hx
        rw [ahas, hfresh0] at this
        cases this
    obtain ⟨R1, R2, R3⟩ := ih (aset full0 v0 (apop k0 acc).2) hnd.2
      (fun k hk => hhas k (List.mem_cons_of_mem _ hk))
      (fun k hk => hsome k (List.mem_cons_of_mem _ hk)) hacc' hfresh' haccnd'
    refine ⟨?_, ?_, ?_⟩
    · intro k hk hnotfull
      have hkrest : k ∉ rest := fun h => hk (List.mem_cons_of_mem _ h)
      have hknek0 : k ≠ k0 := fun he => hk (he ▸ List.mem_cons_self _ _)
      have hknefull0 : k ≠ full0 :=
        hnotfull k0 (List.mem_cons_self _ _) full0 hfull0
      rw [List.foldl_cons, hstep,
        R1 k hkrest (fun k' hk' full' hf' =>
          hnotfull k' (List.mem_cons_of_mem _ hk') full' hf'),
        aget_aset_of_ne _ _ hknefull0, aget_apop_of_ne _ hknek0]
    · intro k hkmem full hf
      rcases List.mem_cons.mp hkmem with rfl | hkrest
      · obtain rfl : full = full0 := Option.some.inj (hf.symm.trans hfull0)
        rw [List.foldl_cons, hstep]
        have hfull_notrest : full ∉ rest := by
          intro h
          exact Bool.noConfusion
            (hfull0_nd0.symm.trans (hhas full (List.mem_cons_of_mem _ h)))
        have hfull_notexp : ∀ k' ∈ rest, ∀ full', aget k' abbr = some full' →
            full ≠ full' := by
          intro k' hk' full' hf'
          have hk'ne : k ≠ k' := fun he => hnd.1 (he ▸ hk')
          exact H3' k k' full full' hfull0 hf' hk0d0
            (hhas k' (List.mem_cons_of_mem _ hk')) hk'ne
        have hk0_notexp : ∀ k' ∈ rest, ∀ full', aget k' abbr = some full' →
            k ≠ full' := by
          intro k' hk' full' hf'
          have hfnd0 : ahas full' d0 = false :=
            H2' k' full' hf' (hhas k' (List.mem_cons_of_mem _ hk'))
          intro he
          exact Bool.noConfusion (hfnd0.symm.trans (he ▸ hk0d0))
        constructor
        · rw [R1 full hfull_notrest hfull_notexp, aget_aset_self, ← hk0acc, hv0]
        · rw [R1 k hnd.1 hk0_notexp, aget_aset_of_ne _ _ hk0_ne_full0]
          exact aget_eq_none_of_ahas_false (ahas_apop_self_of_nodup k acc haccnd)
      · rw [List.foldl_cons, hstep]
        exact R2 k hkrest full hf
    · intro k hk
      rw [List.foldl_cons, hstep] at hk
      rcases R3 k hk with hacc2 | ⟨k', hk', hf'⟩
      · rcases ahas_aset_or hacc2 with rfl | h2
        · exact Or.inr ⟨k0, List.mem_cons_self _ _, hfull0⟩
        · exact Or.inl (ahas_apop_to_ahas h2)
      · exact Or.inr ⟨k', List.mem_cons_of_mem _ hk', hf'⟩

theorem aget_origin_step_of_ne (O : List (String × String)) (d : MqttDict) {k : String}
    (hk : k ≠ "origin") : aget k (replace_origin_step O d) = aget k d := by
  rw [replace_origin_step]
  cases hx : aget "origin" d with
  | none => rfl
  | some ov => exact aget_aset_of_ne _ _ hk

theorem aget_device_step_of_ne (D : List (String × String)) (d : MqttDict) {k : String}
    (hk : k ≠ "device") : aget k (replace_device_step D d) = aget k d := by
  rw [replace_device_step]
  cases hx : aget "device" d with
  | none => rfl
  | some dv => exact aget_aset_of_ne _ _ hk

theorem aget_availability_step_of_ne (A : List (String × String)) (d : MqttDict)
    {k : String} (hk : k ≠ "availability") :
    aget k (replace_availability_step A d) = aget k d := by
  rw [replace_availability_step]
  cases hx : aget "availability" d with
  | none => rfl
  | some av => cases av <;> exact aget_aset_of_ne _ _ hk

theorem origin_step_self (O : List (String × String)) (d : MqttDict) {ov : MqttVal}
    (h : aget "origin" d = some ov) :
    aget "origin" (replace_origin_step O d) = some (replace_abbreviations O ov) := by
  rw [replace_origin_step, h]
  exact aget_aset_self _ _ _

theorem device_step_self (D : List (String × String)) (d : MqttDict) {dv : MqttVal}
    (h : aget "device" d = some dv) :
    aget "device" (replace_device_step D d) = some (replace_abbreviations D dv) := by
  rw [replace_device_step, h]
  exact aget_aset_self _ _ _

theorem availability_step_arr (A : List (String × String)) (d : MqttDict)
    {xs : List MqttVal} (h : aget "availability" d = some (MqttVal.arr xs)) :
    aget "availability" (replace_availability_step A d) =
      some (MqttVal.arr (xs.map (replace_abbreviations A))) := by
  rw [replace_availability_step, h]
  exact aget_aset_self _ _ _

/-- C3 (amended): for a dict payload whose keys are distinct and whose
abbreviation expansions neither collide with keys already present in the
payload nor with the expansion of another abbreviation present in the
payload, `_replace_abbreviations` replaces each key present in the
abbreviation map by its full name keeping the value, leaves the other
keys' values unchanged, and adds no other key; sub-payloads that are not
dicts are left entirely unchanged, and `_replace_all_abbreviations`
expands the `origin` entry with the origin map, the `device` entry with
the device map and each entry of an availability list with the main map.
As stated, the claim fails when an expansion collides with an existing
key (see the counterexample). -/
theorem mqtt_abbreviation_expansion_amended :
    ∀ (A O D : List (String × String)) (d0 : MqttDict),
      (A.map Prod.fst).Nodup →
      (d0.map Prod.fst).Nodup →
      (∀ p ∈ A, ahas p.1 d0 = true → ahas p.2 d0 = false) →
      List.Pairwise
        (fun p q => p.1 = q.1 ∨ ahas p.1 d0 = false ∨ ahas q.1 d0 = false ∨ p.2 ≠ q.2) A →
      ((∀ k v, aget k d0 = some v → aget k A = none →
          aget k (replace_abbreviations_dict A d0) = some v) ∧
        (∀ k v full, aget k d0 = some v → aget k A = some full →
          aget full (replace_abbreviations_dict A d0) = some v ∧
          aget k (replace_abbreviations_dict A d0) = none) ∧
        (∀ k, ahas k (replace_abbreviations_dict A d0) = true →
          (ahas k d0 = true ∧ aget k A = none) ∨
          ∃ k', ahas k' d0 = true ∧ aget k' A = some k) ∧
        (∀ (abbr : List (String × String)) (v : MqttVal), (∀ e, v ≠ MqttVal.obj e) →
          replace_abbreviations abbr v = v) ∧
        (∀ ov, aget "origin" (replace_abbreviations_dict A d0) = some ov →
          aget "origin" (replace_all_abbreviations A O D d0) =
            some (replace_abbreviations O ov)) ∧
        (∀ dv, aget "device" (replace_abbreviations_dict A d0) = some dv →
          aget "device" (replace_all_abbreviations A O D d0) =
            some (replace_abbreviations D dv)) ∧
        (∀ xs, aget "availability" (replace_abbreviations_dict A d0) =
            some (MqttVal.arr xs) →
          aget "availability" (replace_all_abbreviations A O D d0) =
            some (MqttVal.arr (xs.map (replace_abbreviations A))))) := by
  intro A O D d0 H0 H1 H2 H3
  obtain ⟨R1, R2, R3⟩ := abbrev_fold_spec A d0 H1 H2 H3
    ((A.map Prod.fst).filter (fun k => ahas k d0)) d0
    (H0.filter _)
    (fun k hk => (List.mem_filter.mp hk).2)
    (fun k hk => aget_isSome_of_mem_keys (List.mem_filter.mp hk).1)
    (fun _ _ => rfl)
    (fun k hk full hf =>
      aget_eq_none_of_ahas_false (H2 (k, full) (aget_some_mem hf)
        (List.mem_filter.mp hk).2))
    H1
  have hfold : replace_abbreviations_dict A d0 =
      List.foldl (replace_abbrev_step A) d0
        ((A.map Prod.fst).filter (fun k => ahas k d0)) := rfl
  refine ⟨?_, ?_, ?_, ?_, ?_, ?_, ?_⟩
  · intro k v hkv hnone
    have hknotks : k ∉ (A.map Prod.fst).filter (fun k => ahas k d0) := by
      intro hk
      have := aget_isSome_of_mem_keys (V := String) (List.mem_filter.mp hk).1
      rw [hnone] at this
      cases this
    have hkd0 : ahas k d0 = true := by rw [ahas, hkv]; rfl
    rw [hfold, R1 k hknotks (fun k' hk' full' hf' he => ?_), hkv]
    have hfnd0 : ahas full' d0 = false :=
      H2 (k', full') (aget_some_mem hf') (List.mem_filter.mp hk').2
    exact Bool.noConfusion (hfnd0.symm.trans (he ▸ hkd0))
  · intro k v full hkv hf
    have hkd0 : ahas k d0 = true := by rw [ahas, hkv]; rfl
    have hkks : k ∈ (A.map Prod.fst).filter (fun k => ahas k d0) :=
      List.mem_filter.mpr ⟨mem_keys_of_aget_some hf, hkd0⟩
    obtain ⟨h1, h2⟩ := R2 k hkks full hf
    rw [hfold]
    exact ⟨h1.trans hkv, h2⟩
  · intro k hk
    rw [hfold] at hk
    rcases R3 k hk with h | ⟨k', hk', hf'⟩
    · cases hx : aget k A with
      | none => exact Or.inl ⟨h, rfl⟩
      | some full =>
        have hkks : k ∈ (A.map Prod.fst).filter (fun k => ahas k d0) :=
          List.mem_filter.mpr ⟨mem_keys_of_aget_some hx, h⟩
        have h2 := (R2 k hkks full hx).2
        rw [ahas, ← hfold] at hk
        rw [← hfold] at h2
        rw [h2] at hk
        cases hk
    · exact Or.inr ⟨k', (List.mem_filter.mp hk').2, hf'⟩
  · intro abbr v hne
    cases v with
    | obj e => exact absurd rfl (hne e)
    | str s => rfl
    | num n => rfl
    | bool b => rfl
    | null => rfl
    | arr xs => rfl
  · intro ov hov
    rw [replace_all_abbreviations,
      aget_availability_step_of_ne _ _ (by decide),
      aget_device_step_of_ne _ _ (by decide),
      origin_step_self _ _ hov]
  · intro dv hdv
    rw [replace_all_abbreviations,
      aget_availability_step_of_ne _ _ (by decide),
      device_step_self _ _ (by rw [aget_origin_step_of_ne _ _ (by decide)]; exact hdv)]
  · intro xs hxs
    rw [replace_all_abbreviations,
      availability_step_arr _ _ (by
        rw [aget_device_step_of_ne _ _ (by decide),
          aget_origin_step_of_ne _ _ (by decide)]
        exact hxs)]

/-- Counterexample to C3 as stated: with the abbreviation `t → topic`
and the payload `(t = A, topic = B)`, the key `topic` is not in the
abbreviation map, yet after expansion its value is `A` (the popped value
of `t` overwrote it), not its original value `B`. -/
theorem mqtt_abbreviation_expansion_counterexample :
    replace_abbreviations_dict [("t", "topic")]
        [("t", MqttVal.str "A"), ("topic", MqttVal.str "B")] =
      [("topic", MqttVal.str "A")] ∧
    aget "topic" [(("t" : String), ("topic" : String))] = none ∧
    aget "topic" [("t", MqttVal.str "A"), ("topic", MqttVal.str "B")] =
      some (MqttVal.str "B") ∧
    aget "topic" (replace_abbreviations_dict [("t", "topic")]
        [("t", MqttVal.str "A"), ("topic", MqttVal.str "B")]) =
      some (MqttVal.str "A") ∧
    MqttVal.str "A" ≠ MqttVal.str "B" := by
  refine ⟨rfl, rfl, rfl, rfl, fun h => ?_⟩
  injection h with h'
  exact absurd h' (by decide)

/-- Closed instance of `mqtt_abbreviation_expansion_amended`: with
abbreviation `t → topic`, the payload `(t = T, name = N)` expands to a
payload that stores `T` under `topic`. -/
theorem mqtt_abbreviation_expansion_amended_witness :
    aget "topic" (replace_abbreviations_dict [("t", "topic")]
        [("t", MqttVal.str "T"), ("name", MqttVal.str "N")]) =
      some (MqttVal.str "T") :=
  ((mqtt_abbreviation_expansion_amended [("t", "topic")] [] []
      [("t", MqttVal.str "T"), ("name", MqttVal.str "N")]
      (by decide) (by decide) (by decide) (by decide)).2.1
    "t" (MqttVal.str "T") "topic" rfl rfl).1

/-- C4: `_merge_common_options` copies exactly the options that are in
`SHARED_OPTIONS`, present in the device config and absent from the
component config; options already present in the component config keep
their values, and no key outside `SHARED_OPTIONS` is added. -/
theorem mqtt_merge_common_options_spec :
    ∀ (shared : List String) (component_config device_config : MqttDict) (k : String),
      (ahas k component_config = true →
        aget k (merge_common_options shared component_config device_config) =
          aget k component_config) ∧
      (k ∈ shared → ahas k device_config = true → ahas k component_config = false →
        aget k (merge_common_options shared component_config device_config) =
          aget k device_config) ∧
      (ahas k (merge_common_options shared component_config device_config) = true →
        ahas k component_config = true ∨ (k ∈ shared ∧ ahas k device_config = true)) := by
  intro shared comp dev k
  exact ⟨merge_common_options_preserves shared comp dev k,
    merge_common_options_copies shared comp dev k,
    merge_common_options_no_extra shared comp dev k⟩

/-- Closed instance of `mqtt_merge_common_options_spec`: a shared option
absent from the component config is copied from the device config. -/
theorem mqtt_merge_common_options_spec_witness :
    aget "availability"
      (merge_common_options ["availability", "state_topic"]
        [("name", MqttVal.str "n")]
        [("availability", MqttVal.str "a"), ("qos", MqttVal.num 1)]) =
      some (MqttVal.str "a") :=
  ((mqtt_merge_common_options_spec ["availability", "state_topic"]
      [("name", MqttVal.str "n")]
      [("availability", MqttVal.str "a"), ("qos", MqttVal.num 1)]
      "availability").2.1 (by simp) rfl rfl).trans rfl

theorem sync_devices_mem_fst (known devices : List String) (d : String) :
    d ∈ (sync_devices known devices).1 ↔ d ∈ known ∨ d ∈ devices := by
  induction devices generalizing known with
  | nil => simp [sync_devices]
  | cons d0 rest ih =>
    by_cases hk : d0 ∈ known
    · rw [sync_devices, if_pos hk, ih]
      constructor
      · rintro (hh | hh)
        · exact Or.inl hh
        · exact Or.inr (List.mem_cons_of_mem _ hh)
      · rintro (hh | hh)
        · exact Or.inl hh
        · rcases List.mem_cons.mp hh with rfl | hh
          · exact Or.inl hk
          · exact Or.inr hh
    · rw [sync_devices, if_neg hk]
      simp only [ih, List.mem_append, List.mem_singleton, List.mem_cons]
      tauto

theorem sync_homes_effects_shape (known homes : List String) (e : PointEffect)
    (hmem : e ∈ (sync_homes known homes).2) :
    e = .forwardAlarm ∨ ∃ h, e = .discoveryNew "alarm_control_panel" h := by
  induction homes generalizing known with
  | nil => simp [sync_homes] at hmem
  | cons h0 rest ih =>
    by_cases hk : h0 ∈ known
    · rw [sync_homes, if_pos hk] at hmem
      exact ih _ hmem
    · rw [sync_homes, if_neg hk] at hmem
      rcases List.mem_cons.mp hmem with rfl | hmem
      · exact Or.inl rfl
      · rcases List.mem_cons.mp hmem with rfl | hmem
        · exact Or.inr ⟨h0, rfl⟩
        · exact ih _ hmem

theorem sync_devices_effects_shape (known devices : List String) (e : PointEffect)
    (hmem : e ∈ (sync_devices known devices).2) :
    e = .forwardPlatforms ∨ ∃ d, e = .discoveryNew "binary_sensor" d ∨
      e = .discoveryNew "sensor" d := by
  induction devices generalizing known with
  | nil => simp [sync_devices] at hmem
  | cons d0 rest ih =>
    by_cases hk : d0 ∈ known
    · rw [sync_devices, if_pos hk] at hmem
      exact ih _ hmem
    · rw [sync_devices, if_neg hk] at hmem
      rcases List.mem_cons.mp hmem with rfl | hmem
      · exact Or.inl rfl
      · rcases List.mem_cons.mp hmem with rfl | hmem
        · exact Or.inr ⟨d0, Or.inl rfl⟩
        · rcases List.mem_cons.mp hmem with rfl | hmem
          · exact Or.inr ⟨d0, Or.inr rfl⟩
          · exact ih _ hmem

theorem sync_homes_discovery_mem (known homes : List String) (h : String) :
    PointEffect.discoveryNew "alarm_control_panel" h ∈ (sync_homes known homes).2 ↔
      h ∈ homes ∧ h ∉ known := by
  induction homes generalizing known with
  | nil => simp [sync_homes]
  | cons h0 rest ih =>
    by_cases hk : h0 ∈ known
    · rw [sync_homes, if_pos hk, ih]
      constructor
      · rintro ⟨hh, hnk⟩
        exact ⟨List.mem_cons_of_mem _ hh, hnk⟩
      · rintro ⟨hh, hnk⟩
        rcases List.mem_cons.mp hh with rfl | hh
        · exact absurd hk hnk
        · exact ⟨hh, hnk⟩
    · rw [sync_homes, if_neg hk]
      constructor
      · intro hmem
        rcases List.mem_cons.mp hmem with hc | hmem
        · cases hc
        · rcases List.mem_cons.mp hmem with hc | hmem
          · obtain ⟨-, rfl⟩ := PointEffect.discoveryNew.inj hc
            exact ⟨List.mem_cons_self _ _, hk⟩
          · obtain ⟨hh, hnk⟩ := (ih _).mp hmem
            refine ⟨List.mem_cons_of_mem _ hh, fun hc => hnk ?_⟩
            exact List.mem_append.mpr (Or.inl hc)
      · rintro ⟨hh, hnk⟩
        rcases List.mem_cons.mp hh with rfl | hh
        · exact List.mem_cons_of_mem _ (List.mem_cons_self _ _)
        · by_cases he : h = h0
          · subst he
            exact List.mem_cons_of_mem _ (List.mem_cons_self _ _)
          · refine List.mem_cons_of_mem _ (List.mem_cons_of_mem _ ((ih _).mpr ⟨hh, ?_⟩))
            intro hc
            rcases List.mem_append.mp hc with hc | hc
            · exact hnk hc
            · exact he (List.mem_singleton.mp hc)

theorem sync_devices_discovery_mem (known devices : List String) (d platform : String)
    (hp : platform = "binary_sensor" ∨ platform = "sensor") :
    PointEffect.discoveryNew platform d ∈ (sync_devices known devices).2 ↔
      d ∈ devices ∧ d ∉ known := by
  induction devices generalizing known with
  | nil => simp [sync_devices]
  | cons d0 rest ih =>
    by_cases hk : d0 ∈ known
    · rw [sync_devices, if_pos hk, ih]
      constructor
      · rintro ⟨hh, hnk⟩
        exact ⟨List.mem_cons_of_mem _ hh, hnk⟩
      · rintro ⟨hh, hnk⟩
        rcases List.mem_cons.mp hh with rfl | hh
        · exact absurd hk hnk
        · exact ⟨hh, hnk⟩
    · rw [sync_devices, if_neg hk]
      constructor
      · intro hmem
        rcases List.mem_cons.mp hmem with hc | hmem
        · cases hc
        · rcases List.mem_cons.mp hmem with hc | hmem
          · obtain ⟨-, rfl⟩ := PointEffect.discoveryNew.inj hc
            exact ⟨List.mem_cons_self _ _, hk⟩
          · rcases List.mem_cons.mp hmem with hc | hmem
            · obtain ⟨-, rfl⟩ := PointEffect.discoveryNew.inj hc
              exact ⟨List.mem_cons_self _ _, hk⟩
            · obtain ⟨hh, hnk⟩ := (ih _).mp hmem
              refine ⟨List.mem_cons_of_mem _ hh, fun hc => hnk ?_⟩
              exact List.mem_append.mpr (Or.inl hc)
      · rintro ⟨hh, hnk⟩
        rcases List.mem_cons.mp hh with rfl | hh
        · rcases hp with rfl | rfl
          · exact List.mem_cons_of_mem _ (List.mem_cons_self _ _)
          · exact List.mem_cons_of_mem _
              (List.mem_cons_of_mem _ (List.mem_cons_self _ _))
        · by_cases he : d = d0
          · subst he
            rcases hp with rfl | rfl
            · exact List.mem_cons_of_mem _ (List.mem_cons_self _ _)
            · exact List.mem_cons_of_mem _
                (List.mem_cons_of_mem _ (List.mem_cons_self _ _))
          · refine List.mem_cons_of_mem _ (List.mem_cons_of_mem _
              (List.mem_cons_of_mem _ ((ih _).mpr ⟨hh, ?_⟩)))
            intro hc
            rcases List.mem_append.mp hc with hc | hc
            · exact hnk hc
            · exact he (List.mem_singleton.mp hc)

/-- C8: when the cloud update fails, `_sync` marks the client unavailable
(so `is_available` is `False` for every device id), still dispatches the
entity-update signal, leaves the known home/device sets unchanged and
sends no discovery signal; when the update succeeds, the client becomes
available and a discovery signal is sent exactly for the home and device
ids not previously known, which end up in the known sets. -/
theorem point_sync_failure_and_success :
    ∀ (st : PointState) (homes devices : List String),
      (MinutPointClient_sync st false homes devices =
          ({ st with is_available := false },
            [.warnUnavailable, .signalUpdateEntity]) ∧
        (∀ (device_ids : List String) (device_id : String),
          MinutPointClient_is_available
            (MinutPointClient_sync st false homes devices).1 device_ids device_id = false) ∧
        (∀ p d, PointEffect.discoveryNew p d ∉ (MinutPointClient_sync st false homes devices).2)) ∧
      ((MinutPointClient_sync st true homes devices).1.is_available = true ∧
        (∀ h, h ∈ (MinutPointClient_sync st true homes devices).1.known_homes ↔
          h ∈ st.known_homes ∨ h ∈ homes) ∧
        (∀ d, d ∈ (MinutPointClient_sync st true homes devices).1.known_devices ↔
          d ∈ st.known_devices ∨ d ∈ devices) ∧
        (∀ h, PointEffect.discoveryNew "alarm_control_panel" h ∈
            (MinutPointClient_sync st true homes devices).2 ↔
          h ∈ homes ∧ h ∉ st.known_homes) ∧
        (∀ d, PointEffect.discoveryNew "binary_sensor" d ∈
            (MinutPointClient_sync st true homes devices).2 ↔
          d ∈ devices ∧ d ∉ st.known_devices) ∧
        (∀ d, PointEffect.discoveryNew "sensor" d ∈
            (MinutPointClient_sync st true homes devices).2 ↔
          d ∈ devices ∧ d ∉ st.known_devices)) := by
  intro st homes devices
  refine ⟨⟨rfl, ?_, ?_⟩, ?_, ?_, ?_, ?_, ?_, ?_⟩
  · intro ids did
    simp [MinutPointClient_sync, MinutPointClient_is_available]
  · intro p d hmem
    simp [MinutPointClient_sync] at hmem
  · rfl
  · intro h
    simpa only [MinutPointClient_sync, Bool.not_true, Bool.false_eq_true, if_false]
      using sync_homes_mem_fst st.known_homes homes h
  · intro d
    simpa only [MinutPointClient_sync, Bool.not_true, Bool.false_eq_true, if_false]
      using sync_devices_mem_fst st.known_devices devices d
  · intro h
    simp only [MinutPointClient_sync, Bool.not_true, Bool.false_eq_true, if_false,
      List.mem_append, List.mem_singleton]
    constructor
    · rintro ((hh | hh) | hh)
      · exact (sync_homes_discovery_mem _ _ _).mp hh
      · rcases sync_devices_effects_shape _ _ _ hh with hc | ⟨d, hc | hc⟩ <;>
          simp at hc
      · cases hh
    · intro hh
      exact Or.inl (Or.inl ((sync_homes_discovery_mem _ _ _).mpr hh))
  · intro d
    simp only [MinutPointClient_sync, Bool.not_true, Bool.false_eq_true, if_false,
      List.mem_append, List.mem_singleton]
    constructor
    · rintro ((hh | hh) | hh)
      · rcases sync_homes_effects_shape _ _ _ hh with hc | ⟨h, hc⟩ <;> simp at hc
      · exact (sync_devices_discovery_mem _ _ _ _ (Or.inl rfl)).mp hh
      · cases hh
    · intro hh
      exact Or.inl (Or.inr ((sync_devices_discovery_mem _ _ _ _ (Or.inl rfl)).mpr hh))
  · intro d
    simp only [MinutPointClient_sync, Bool.not_true, Bool.false_eq_true, if_false,
      List.mem_append, List.mem_singleton]
    constructor
    · rintro ((hh | hh) | hh)
      · rcases sync_homes_effects_shape _ _ _ hh with hc | ⟨h, hc⟩ <;> simp at hc
      · exact (sync_devices_discovery_mem _ _ _ _ (Or.inr rfl)).mp hh
      · cases hh
    · intro hh
      exact Or.inl (Or.inr ((sync_devices_discovery_mem _ _ _ _ (Or.inr rfl)).mpr hh))

theorem splitChar_ne_nil (sep : Char) (l : List Char) : splitChar sep l ≠ [] := by
  cases l with
  | nil => simp [splitChar]
  | cons c t =>
    rw [splitChar]
    cases splitChar sep t with
    | nil => simp
    | cons h r =>
      by_cases hc : c = sep <;> simp [hc]

theorem splitChar_cons_eq {sep c : Char} {t : List Char} {h : List Char}
    {r : List (List Char)} (hsp : splitChar sep t = h :: r) :
    splitChar sep (c :: t) = if c = sep then [] :: h :: r else (c :: h) :: r := by
  rw [splitChar, hsp]

theorem not_mem_of_mem_splitChar (sep : Char) (l : List Char) (p : List Char)
    (hp : p ∈ splitChar sep l) : sep ∉ p := by
  induction l generalizing p with
  | nil =>
    simp only [splitChar, List.mem_singleton] at hp
    subst hp
    exact List.not_mem_nil sep
  | cons c t ih =>
    cases hsp : splitChar sep t with
    | nil => exact absurd hsp (splitChar_ne_nil sep t)
    | cons h r =>
      rw [splitChar_cons_eq hsp] at hp
      by_cases hc : c = sep
      · rw [if_pos hc] at hp
        rcases List.mem_cons.mp hp with rfl | hp2
        · exact List.not_mem_nil sep
        · exact ih p (hsp ▸ hp2)
      · rw [if_neg hc] at hp
        rcases List.mem_cons.mp hp with rfl | hp2
        · intro hmem
          rcases List.mem_cons.mp hmem with he | hmem2
          · exact hc he.symm
          · exact ih h (hsp ▸ List.mem_cons_self _ _) hmem2
        · exact ih p (hsp ▸ List.mem_cons_of_mem _ hp2)

theorem cleanup_step_split {dn : List Char} {platform discover_id : String}
    {first : List Char} {ids : List (List Char)} (comp : MqttDict)
    (hs : splitChar ' ' discover_id.toList = first :: ids) :
    cleanup_step dn platform discover_id comp =
      if ids.isEmpty then comp
      else if first = dn then
        aset (String.mk (joinChar ' ' ids))
          (MqttVal.obj [("platform", MqttVal.str platform)]) comp
      else comp := by
  rw [cleanup_step, hs]

theorem splitChar_head_tail (sep : Char) (l : List Char) :
    ∃ first ids, splitChar sep l = first :: ids := by
  cases hsp : splitChar sep l with
  | nil => exact absurd hsp (splitChar_ne_nil sep l)
  | cons f is => exact ⟨f, is, rfl⟩

theorem cleanup_components_of_space_mem (already : List (String × String))
    (dn : List Char) (comp : MqttDict) (hsp : ' ' ∈ dn) :
    cleanup_components already dn comp = comp := by
  induction already generalizing comp with
  | nil => rfl
  | cons pd rest ih =>
    obtain ⟨platform, discover_id⟩ := pd
    obtain ⟨first, ids, hs⟩ := splitChar_head_tail ' ' discover_id.toList
    rw [cleanup_components, cleanup_step_split comp hs]
    by_cases hid : ids.isEmpty
    · rw [if_pos hid]
      exact ih comp
    · rw [if_neg hid]
      have hfirst : first ≠ dn := by
        intro he
        exact not_mem_of_mem_splitChar ' ' discover_id.toList first
          (hs ▸ List.mem_cons_self _ _) (he ▸ hsp)
      rw [if_neg hfirst]
      exact ih comp

theorem ahas_cleanup_components_mono (already : List (String × String))
    (dn : List Char) (comp : MqttDict) (k : String) (h : ahas k comp = true) :
    ahas k (cleanup_components already dn comp) = true := by
  induction already generalizing comp with
  | nil => exact h
  | cons pd rest ih =>
    obtain ⟨platform, discover_id⟩ := pd
    obtain ⟨first, ids, hs⟩ := splitChar_head_tail ' ' discover_id.toList
    rw [cleanup_components, cleanup_step_split comp hs]
    by_cases hid : ids.isEmpty
    · rw [if_pos hid]
      exact ih comp h
    · rw [if_neg hid]
      by_cases hfirst : first = dn
      · rw [if_pos hfirst]
        refine ih _ ?_
        by_cases hk : k = String.mk (joinChar ' ' ids)
        · subst hk
          rw [ahas, aget_aset_self]
          rfl
        · rw [ahas, aget_aset_of_ne _ _ hk]
          exact h
      · rw [if_neg hfirst]
        exact ih comp h

theorem cleanup_components_sound (already : List (String × String)) (dn : List Char) :
    ∀ (comp : MqttDict) (k : String) (v : MqttVal),
      aget k (cleanup_components already dn comp) = some v →
      (∃ platform discover_id first ids,
        (platform, discover_id) ∈ already ∧
        splitChar ' ' discover_id.toList = first :: ids ∧ ids ≠ [] ∧ first = dn ∧
        k = String.mk (joinChar ' ' ids) ∧
        v = MqttVal.obj [("platform", MqttVal.str platform)]) ∨
      aget k comp = some v := by
  induction already with
  | nil => exact fun comp k v h => Or.inr h
  | cons pd rest ih =>
    obtain ⟨platform, discover_id⟩ := pd
    intro comp k v h
    obtain ⟨first, ids, hs⟩ := splitChar_head_tail ' ' discover_id.toList
    rw [cleanup_components, cleanup_step_split comp hs] at h
    by_cases hid : ids.isEmpty
    · rw [if_pos hid] at h
      rcases ih comp k v h with ⟨p, i, f, is, hmem, h2, h3, h4, h5, h6⟩ | h2
      · exact Or.inl ⟨p, i, f, is, List.mem_cons_of_mem _ hmem, h2, h3, h4, h5, h6⟩
      · exact Or.inr h2
    · rw [if_neg hid] at h
      by_cases hfirst : first = dn
      · rw [if_pos hfirst] at h
        rcases ih _ k v h with ⟨p, i, f, is, hmem, h2, h3, h4, h5, h6⟩ | h2
        · exact Or.inl ⟨p, i, f, is, List.mem_cons_of_mem _ hmem, h2, h3, h4, h5, h6⟩
        · by_cases hk : k = String.mk (joinChar ' ' ids)
          · subst hk
            rw [aget_aset_self] at h2
            refine Or.inl ⟨platform, discover_id, first, ids,
              List.mem_cons_self _ _, hs, ?_, hfirst, rfl,
              (Option.some.inj h2).symm⟩
            intro he
            exact hid (by rw [he]; rfl)
          · rw [aget_aset_of_ne _ _ hk] at h2
            exact Or.inr h2
      · rw [if_neg hfirst] at h
        rcases ih comp k v h with ⟨p, i, f, is, hmem, h2, h3, h4, h5, h6⟩ | h2
        · exact Or.inl ⟨p, i, f, is, List.mem_cons_of_mem _ hmem, h2, h3, h4, h5, h6⟩
        · exact Or.inr h2

theorem cleanup_components_complete (already : List (String × String)) (dn : List Char) :
    ∀ (comp : MqttDict) (platform discover_id : String) (first : List Char)
      (ids : List (List Char)),
      (platform, discover_id) ∈ already →
      splitChar ' ' discover_id.toList = first :: ids → ids ≠ [] → first = dn →
      ahas (String.mk (joinChar ' ' ids)) (cleanup_components already dn comp) = true := by
  induction already with
  | nil => exact fun comp p i f is hmem => absurd hmem (List.not_mem_nil _)
  | cons pd rest ih =>
    obtain ⟨platform0, discover_id0⟩ := pd
    intro comp platform discover_id first ids hmem hs hids hfirst
    rcases List.mem_cons.mp hmem with he | hmem2
    · obtain ⟨rfl, rfl⟩ := Prod.mk.inj he
      rw [cleanup_components, cleanup_step_split comp hs,
        if_neg (by simpa [List.isEmpty_iff] using hids), if_pos hfirst]
      exact ahas_cleanup_components_mono rest dn _ _
        (by rw [ahas, aget_aset_self]; rfl)
    · obtain ⟨f0, is0, hs0⟩ := splitChar_head_tail ' ' discover_id0.toList
      rw [cleanup_components]
      exact ih _ platform discover_id first ids hmem2 hs hids hfirst

/-- C6 (amended): the cleanup config built for an empty device payload
contains an entry for every already-discovered hash whose discovery id
has the device node id as its first space-separated token followed by
at least one more token, mapping the remaining tokens (joined by
spaces) to the hash's platform — and only such entries.  Because the
first token never contains a space while the device node id does as
soon as the topic has a node_id, the result is always the empty dict
(and the warning is logged) when a node_id is present.  The empty dict
plus a warning is returned exactly when no component matches. -/
theorem mqtt_device_cleanup_amended :
    ∀ (already : List (String × String)) (object_id : String) (node_id : Option String),
      ((∀ n, node_id = some n →
          generate_device_cleanup_config already object_id node_id = [] ∧
          (parse_device_payload_empty already object_id node_id).2 = true) ∧
        (∀ k v,
          aget k (cleanup_components already (device_node_id_of object_id node_id) []) =
            some v →
          ∃ platform discover_id first ids,
            (platform, discover_id) ∈ already ∧
            splitChar ' ' discover_id.toList = first :: ids ∧ ids ≠ [] ∧
            first = device_node_id_of object_id node_id ∧
            k = String.mk (joinChar ' ' ids) ∧
            v = MqttVal.obj [("platform", MqttVal.str platform)]) ∧
        (∀ platform discover_id first ids,
          (platform, discover_id) ∈ already →
          splitChar ' ' discover_id.toList = first :: ids → ids ≠ [] →
          first = device_node_id_of object_id node_id →
          ahas (String.mk (joinChar ' ' ids))
            (cleanup_components already (device_node_id_of object_id node_id) []) = true) ∧
        (generate_device_cleanup_config already object_id node_id = [] ↔
          cleanup_components already (device_node_id_of object_id node_id) [] = []) ∧
        (parse_device_payload_empty already object_id node_id).1 =
          generate_device_cleanup_config already object_id node_id ∧
        ((parse_device_payload_empty already object_id node_id).2 = true ↔
          generate_device_cleanup_config already object_id node_id = [])) := by
  intro already object_id node_id
  refine ⟨?_, ?_, ?_, ?_, rfl, ?_⟩
  · intro n hn
    subst hn
    have hsp : ' ' ∈ device_node_id_of object_id (some n) := by
      rw [device_node_id_of]
      exact List.mem_append.mpr (Or.inr (List.mem_cons_self _ _))
    have hc : cleanup_components already (device_node_id_of object_id (some n)) [] = [] :=
      cleanup_components_of_space_mem already _ [] hsp
    constructor
    · rw [generate_device_cleanup_config, hc]
      rfl
    · rw [parse_device_payload_empty, generate_device_cleanup_config, hc]
      rfl
  · intro k v h
    rcases cleanup_components_sound already _ [] k v h with hsound | h2
    · exact hsound
    · cases h2
  · exact fun p i f is hmem hs hids hf =>
      cleanup_components_complete already _ [] p i f is hmem hs hids hf
  · rw [generate_device_cleanup_config]
    cases hc : cleanup_components already (device_node_id_of object_id node_id) [] with
    | nil => simp
    | cons e t => simp
  · rw [parse_device_payload_empty, generate_device_cleanup_config]
    cases hc : cleanup_components already (device_node_id_of object_id node_id) [] with
    | nil => simp
    | cons e t => simp

/-- Counterexample to C6 as stated: the discovery id `n o c` splits as
device node id `n o` followed by component object id `c` for the device
topic with node_id `n` and object_id `o`, so the claim predicts a
cleanup entry `c -> sensor`; the code compares the device node id with
the first space-separated token only, matches nothing, and returns the
empty dict. -/
theorem mqtt_device_cleanup_counterexample :
    generate_device_cleanup_config [("sensor", "n o c")] "o" (some "n") = [] ∧
    spec_device_cleanup_components [("sensor", "n o c")]
        (device_node_id_of "o" (some "n")) =
      [("c", MqttVal.obj [("platform", MqttVal.str "sensor")])] ∧
    ([] : MqttDict) ≠ [("c", MqttVal.obj [("platform", MqttVal.str "sensor")])] :=
  ⟨rfl, rfl, fun h => List.noConfusion h⟩

/-- Closed instance of `mqtt_device_cleanup_amended`: with no node_id,
the discovered hash `("sensor", "o c")` for device object id `o` yields
a cleanup entry under key `c`; with a node_id the cleanup is empty. -/
theorem mqtt_device_cleanup_amended_witness :
    ahas "c" (cleanup_components [("sensor", "o c")] (device_node_id_of "o" none) []) =
      true ∧
    generate_device_cleanup_config [("sensor", "o c")] "o" (some "n") = [] :=
  ⟨(mqtt_device_cleanup_amended [("sensor", "o c")] "o" none).2.2.1
      "sensor" "o c" "o".toList [['c']] (List.mem_cons_self _ _) rfl
      (fun h => List.noConfusion h) rfl,
    ((mqtt_device_cleanup_amended [("sensor", "o c")] "o" (some "n")).1 "n" rfl).1⟩

theorem process_device_component_pop {shared : List String}
    {A O D : List (String × String)} {object_id : String} {node_id : Option String}
    {device_payload : MqttDict} {device_config : MqttVal}
    {origin_config : Option MqttVal} {component_id : String} {config config2 : MqttDict}
    {platform : String}
    (hpop : apop "platform" config = (some (MqttVal.str platform), config2)) :
    process_device_component shared A O D object_id node_id device_payload
        device_config origin_config component_id config =
      some ⟨platform,
        (match node_id with
          | some n => n ++ " " ++ component_id
          | none => component_id),
        some object_id,
        if (replace_all_abbreviations A O D config2).isEmpty then ⟨[], false⟩
        else
          ⟨merge_common_options shared
              (aset "origin" (origin_config.getD MqttVal.null)
                (aset "device" device_config (replace_all_abbreviations A O D config2)))
              device_payload,
            true⟩⟩ := by
  rw [process_device_component.eq_def, hpop]

/-- C5: each component of a device-based discovery message whose config
is non-empty after removing the platform key is wrapped into a payload
marked as device discovery, carrying the device config, the origin
config and the unset shared options, and is identified by node_id equal
to the topic's object_id and object_id equal to the topic's node_id
followed by a space and the component_id (or the component_id alone
without a topic node_id); a component config empty after removing the
platform key is forwarded as an empty payload with no device, origin or
shared availability attributes. -/
theorem mqtt_device_component_wrapping :
    ∀ (shared : List String) (A O D : List (String × String)) (object_id : String)
      (node_id : Option String) (device_payload : MqttDict) (device_config : MqttVal)
      (origin_config : Option MqttVal) (component_id : String)
      (config config2 : MqttDict) (platform : String),
      apop "platform" config = (some (MqttVal.str platform), config2) →
      (((replace_all_abbreviations A O D config2).isEmpty = true →
          process_device_component shared A O D object_id node_id device_payload
              device_config origin_config component_id config =
            some ⟨platform,
              (match node_id with
                | some n => n ++ " " ++ component_id
                | none => component_id),
              some object_id, ⟨[], false⟩⟩) ∧
        ((replace_all_abbreviations A O D config2).isEmpty = false →
          ∃ payload : MQTTDiscoveryPayload,
            process_device_component shared A O D object_id node_id device_payload
                device_config origin_config component_id config =
              some ⟨platform,
                (match node_id with
                  | some n => n ++ " " ++ component_id
                  | none => component_id),
                some object_id, payload⟩ ∧
            payload.device_discovery = true ∧
            payload.entries =
              merge_common_options shared
                (aset "origin" (origin_config.getD MqttVal.null)
                  (aset "device" device_config
                    (replace_all_abbreviations A O D config2))) device_payload ∧
            aget "device" payload.entries = some device_config ∧
            aget "origin" payload.entries = some (origin_config.getD MqttVal.null) ∧
            (∀ opt ∈ shared, ahas opt device_payload = true →
              ahas opt payload.entries = true)) ∧
        (∀ (dp : MqttDict) (dc : MqttVal) (comps : List (String × MqttVal)),
          aget "device" dp = some dc →
          aget "components" dp = some (MqttVal.obj comps) →
          process_device_components shared A O D object_id node_id dp =
            comps.mapM (fun p =>
              match p.2 with
              | MqttVal.obj c =>
                process_device_component shared A O D object_id node_id dp dc
                  (aget "origin" dp) p.1 c
              | _ => none))) := by
  intro shared A O D object_id node_id device_payload device_config origin_config
    component_id config config2 platform hpop
  refine ⟨?_, ?_, ?_⟩
  · intro he
    rw [process_device_component_pop hpop, if_pos he]
  · intro he
    have hne : ¬((replace_all_abbreviations A O D config2).isEmpty = true) :=
      fun hc => Bool.noConfusion (he.symm.trans hc)
    refine ⟨⟨merge_common_options shared
        (aset "origin" (origin_config.getD MqttVal.null)
          (aset "device" device_config (replace_all_abbreviations A O D config2)))
        device_payload, true⟩,
      by rw [process_device_component_pop hpop, if_neg hne], rfl, rfl, ?_, ?_, ?_⟩
    · have h2 : aget "device"
          (aset "origin" (origin_config.getD MqttVal.null)
            (aset "device" device_config (replace_all_abbreviations A O D config2))) =
          some device_config := by
        rw [aget_aset_of_ne _ _ (by decide), aget_aset_self]
      rw [merge_common_options_preserves shared _ _ "device" (by rw [ahas, h2]; rfl)]
      exact h2
    · have h3 : aget "origin"
          (aset "origin" (origin_config.getD MqttVal.null)
            (aset "device" device_config (replace_all_abbreviations A O D config2))) =
          some (origin_config.getD MqttVal.null) := aget_aset_self _ _ _
      rw [merge_common_options_preserves shared _ _ "origin" (by rw [ahas, h3]; rfl)]
      exact h3
    · intro opt hopt hdev
      by_cases hc : ahas opt
          (aset "origin" (origin_config.getD MqttVal.null)
            (aset "device" device_config (replace_all_abbreviations A O D config2))) = true
      · rw [ahas, merge_common_options_preserves shared _ _ opt hc]
        exact hc
      · have hc' : ahas opt
            (aset "origin" (origin_config.getD MqttVal.null)
              (aset "device" device_config (replace_all_abbreviations A O D config2))) =
            false := by
          cases hx : ahas opt
              (aset "origin" (origin_config.getD MqttVal.null)
                (aset "device" device_config (replace_all_abbreviations A O D config2))) with
          | false => rfl
          | true => exact absurd hx hc
        rw [ahas, merge_common_options_copies shared _ _ opt hopt hdev hc']
        exact hdev
  · intro dp dc comps h1 h2
    rw [process_device_components, h1, h2]

/-- Closed instance of `mqtt_device_component_wrapping`: a component
whose config is just its platform key is forwarded as an empty payload
with no attributes attached. -/
theorem mqtt_device_component_wrapping_witness :
    process_device_component [] [] [] [] "o" (some "n") [] (MqttVal.obj []) none "c1"
        [("platform", MqttVal.str "switch")] =
      some ⟨"switch", "n" ++ " " ++ "c1", some "o", ⟨[], false⟩⟩ :=
  (mqtt_device_component_wrapping [] [] [] [] "o" (some "n") [] (MqttVal.obj []) none
      "c1" [("platform", MqttVal.str "switch")] [] "switch" rfl).1 rfl

theorem takeWhile_level (p : Char → Bool) (hp : p '/' = false) (l r : List Char)
    (hall : l.all p = true) :
    (l ++ '/' :: r).takeWhile p = l ∧ (l ++ '/' :: r).dropWhile p = '/' :: r := by
  induction l with
  | nil => simp [List.takeWhile_cons, List.dropWhile_cons, hp]
  | cons c t ih =>
    simp only [List.all_cons, Bool.and_eq_true] at hall
    obtain ⟨h1, h2⟩ := ih hall.2
    simp [List.takeWhile_cons, List.dropWhile_cons, hall.1, h1, h2]

theorem dropWhile_level_not_all (p : Char → Bool) (l r : List Char)
    (hnall : l.all p = false) :
    ∃ c t, (l ++ '/' :: r).dropWhile p = c :: t ∧ c ∈ l ∧ p c = false := by
  induction l with
  | nil => simp at hnall
  | cons c0 t ih =>
    cases hc : p c0 with
    | false =>
      exact ⟨c0, t ++ '/' :: r, by simp [List.dropWhile_cons, hc],
        List.mem_cons_self _ _, hc⟩
    | true =>
      have ht : t.all p = false := by
        simp only [List.all_cons, hc, Bool.true_and] at hnall
        exact hnall
      obtain ⟨c, t', hd, hm, hpc⟩ := ih ht
      exact ⟨c, t', by simp [List.dropWhile_cons, hc, hd],
        List.mem_cons_of_mem _ hm, hpc⟩

theorem isPrefixOf_cons_cons (a c : Char) (as t : List Char) :
    (a :: as).isPrefixOf (c :: t) = ((a == c) && as.isPrefixOf t) := rfl

theorem isPrefixOf_noSlash_append :
    ∀ (a : List Char), '/' ∉ a → ∀ (b r : List Char),
      a.isPrefixOf (b ++ '/' :: r) = a.isPrefixOf b
  | [], _, _, _ => by simp [List.isPrefixOf]
  | x :: xs, ha, b, r => by
    have hx : ¬x = '/' := fun he => ha (he ▸ List.mem_cons_self _ _)
    have ha' : '/' ∉ xs := fun h => ha (List.mem_cons_of_mem _ h)
    cases b with
    | nil =>
      rw [List.nil_append, isPrefixOf_cons_cons]
      have hb : (x == '/') = false := by simp [hx]
      rw [hb, Bool.false_and]
      rfl
    | cons y bs =>
      rw [List.cons_append, isPrefixOf_cons_cons, isPrefixOf_cons_cons,
        isPrefixOf_noSlash_append xs ha' bs r]

theorem configLit_isPrefixOf_cons (rs : List Char) :
    configLit.isPrefixOf ('/' :: rs) = configChars.isPrefixOf rs := by
  rw [configLit, isPrefixOf_cons_cons]
  simp

theorem matchTail_three (l2 : List Char) (h2 : '/' ∉ l2) :
    matchTail (l2 ++ '/' :: configChars) =
      if !l2.isEmpty && l2.all isIdChar then some (none, l2) else none := by
  cases hall : l2.all isIdChar with
  | true =>
    obtain ⟨ht, hd⟩ := takeWhile_level isIdChar (by decide) l2 configChars hall
    cases hemp : l2.isEmpty with
    | true =>
      obtain rfl : l2 = [] := List.isEmpty_iff.mp hemp
      decide
    | false =>
      simp only [matchTail, ht, hd, hemp, Bool.false_eq_true, if_false,
        Bool.not_false, Bool.true_and, hall, if_true]
      simp [(by decide : configChars.takeWhile isIdChar = configChars),
        (by decide : configChars.dropWhile isIdChar = ([] : List Char)),
        (by decide : configLit.isPrefixOf ([] : List Char) = false),
        (by decide : configLit.isPrefixOf ('/' :: configChars) = true),
        (by decide : configChars.isEmpty = false), hemp]
  | false =>
    obtain ⟨c, t, hdrop, hcmem, hpc⟩ := dropWhile_level_not_all isIdChar l2 configChars hall
    have hc : ¬c = '/' := fun he => h2 (he ▸ hcmem)
    have hpref : configLit.isPrefixOf (c :: t) = false := by
      rw [configLit, isPrefixOf_cons_cons]
      have : ('/' == c) = false := by simp [Ne.symm hc]
      rw [this, Bool.false_and]
    simp only [matchTail, hdrop]
    by_cases hni : ((l2 ++ '/' :: configChars).takeWhile isIdChar).isEmpty
    · simp [hni, hall]
    · simp [hni, hc, hpref, hall]

theorem matchTail_four (l2 l3 : List Char) (h2 : '/' ∉ l2) (h3 : '/' ∉ l3) :
    matchTail (l2 ++ '/' :: (l3 ++ '/' :: configChars)) =
      if !l2.isEmpty && l2.all isIdChar then
        (if !l3.isEmpty && l3.all isIdChar then some (some l2, l3)
          else if configChars.isPrefixOf l3 then some (none, l2)
          else none)
      else none := by
  cases hall2 : l2.all isIdChar with
  | false =>
    obtain ⟨c, t, hdrop, hcmem, hpc⟩ :=
      dropWhile_level_not_all isIdChar l2 (l3 ++ '/' :: configChars) hall2
    have hc : ¬c = '/' := fun he => h2 (he ▸ hcmem)
    have hpref : configLit.isPrefixOf (c :: t) = false := by
      rw [configLit, isPrefixOf_cons_cons]
      have : ('/' == c) = false := by simp [Ne.symm hc]
      rw [this, Bool.false_and]
    simp only [matchTail, hdrop]
    by_cases hni : ((l2 ++ '/' :: (l3 ++ '/' :: configChars)).takeWhile isIdChar).isEmpty
    · simp [hni, hall2]
    · simp [hni, hc, hpref, hall2]
  | true =>
    obtain ⟨ht, hd⟩ :=
      takeWhile_level isIdChar (by decide) l2 (l3 ++ '/' :: configChars) hall2
    cases hemp2 : l2.isEmpty with
    | true =>
      obtain rfl : l2 = [] := List.isEmpty_iff.mp hemp2
      simp [matchTail, List.takeWhile_cons, (by decide : isIdChar '/' = false)]
    | false =>
      cases hall3 : l3.all isIdChar with
      | true =>
        obtain ⟨ht3, hd3⟩ := takeWhile_level isIdChar (by decide) l3 configChars hall3
        cases hemp3 : l3.isEmpty with
        | true =>
          obtain rfl : l3 = [] := List.isEmpty_iff.mp hemp3
          obtain ⟨ht2, hd2⟩ :=
            takeWhile_level isIdChar (by decide) l2 ('/' :: configChars) hall2
          simp only [List.nil_append]
          simp only [matchTail, ht2, hd2, hemp2]
          simp [(by decide : List.takeWhile isIdChar ('/' :: configChars) = ([] : List Char)),
            (by decide :
              configLit.isPrefixOf ('/' :: '/' :: configChars) = false),
            (by decide : configChars.isPrefixOf ([] : List Char) = false),
            hall2, hemp2]
        | false =>
          simp only [matchTail, ht, hd, hemp2]
          simp [ht3, hd3, hemp3, hall3,
            (by decide : configLit.isPrefixOf ('/' :: configChars) = true)]
      | false =>
        obtain ⟨c, t, hdrop3, hcmem3, hpc3⟩ :=
          dropWhile_level_not_all isIdChar l3 configChars hall3
        have hc : ¬c = '/' := fun he => h3 (he ▸ hcmem3)
        have hpref : configLit.isPrefixOf (c :: t) = false := by
          rw [configLit, isPrefixOf_cons_cons]
          have : ('/' == c) = false := by simp [Ne.symm hc]
          rw [this, Bool.false_and]
        have hfb : configLit.isPrefixOf ('/' :: (l3 ++ '/' :: configChars)) =
            configChars.isPrefixOf l3 := by
          rw [configLit_isPrefixOf_cons,
            isPrefixOf_noSlash_append configChars (by decide) l3 configChars]
        simp only [matchTail, ht, hd, hemp2, hdrop3]
        by_cases hni3 : ((l3 ++ '/' :: configChars).takeWhile isIdChar).isEmpty
        · simp [hni3, hall3, hfb, hemp2]
        · simp [hni3, hc, hpref, hall3, hfb, hemp2]

theorem topicMatch_level (l1 r : List Char) (h1 : '/' ∉ l1) :
    topicMatch (l1 ++ '/' :: r) =
      if !l1.isEmpty && l1.all isWordChar then
        (matchTail r).map (fun p => (l1, p.1, p.2))
      else none := by
  cases hall : l1.all isWordChar with
  | true =>
    obtain ⟨ht, hd⟩ := takeWhile_level isWordChar (by decide) l1 r hall
    cases hemp : l1.isEmpty with
    | true =>
      obtain rfl : l1 = [] := List.isEmpty_iff.mp hemp
      simp [topicMatch, List.takeWhile_cons, (by decide : isWordChar '/' = false)]
    | false =>
      simp [topicMatch, ht, hd, hemp, hall]
  | false =>
    obtain ⟨c, t, hdrop, hcmem, hpc⟩ := dropWhile_level_not_all isWordChar l1 r hall
    have hc : ¬c = '/' := fun he => h1 (he ▸ hcmem)
    simp only [topicMatch, hdrop]
    by_cases hni : ((l1 ++ '/' :: r).takeWhile isWordChar).isEmpty
    · simp [hni, hall]
    · simp [hni, hc, hall]

/-- C2 (amended): the handler processes a discovery exactly when the
regex matches a PREFIX of the trimmed topic (`re.match` is not anchored
at the end).  On subscription-shaped topics: a three-level topic
`l1/l2/config` is processed iff `l1` is a non-empty word-character run
and `l2` a non-empty id run (groups `(l1, none, l2)`); a four-level
topic `l1/l2/l3/config` additionally requires `l2` to be a non-empty id
run, and is processed with groups `(l1, some l2, l3)` when `l3` is a
non-empty id run, but also — with groups `(l1, none, l2)` — when `l3`
merely starts with the literal `config`.  A warning is logged iff the
topic does not match and ends with `config`. -/
theorem mqtt_topic_matcher_amended :
    (∀ l1 l2 : List Char, '/' ∉ l1 → '/' ∉ l2 →
      topicMatch (l1 ++ '/' :: (l2 ++ '/' :: configChars)) =
        if !l1.isEmpty && l1.all isWordChar && !l2.isEmpty && l2.all isIdChar then
          some (l1, none, l2)
        else none) ∧
    (∀ l1 l2 l3 : List Char, '/' ∉ l1 → '/' ∉ l2 → '/' ∉ l3 →
      topicMatch (l1 ++ '/' :: (l2 ++ '/' :: (l3 ++ '/' :: configChars))) =
        if !l1.isEmpty && l1.all isWordChar && !l2.isEmpty && l2.all isIdChar then
          (if !l3.isEmpty && l3.all isIdChar then some (l1, some l2, l3)
            else if configChars.isPrefixOf l3 then some (l1, none, l2)
            else none)
        else none) ∧
    (∀ t : List Char,
      (async_discovery_message_received_action t = HandlerAction.warnIllegal ↔
        topicMatch t = none ∧ configChars.isSuffixOf t = true) ∧
      (∀ c n o, async_discovery_message_received_action t = HandlerAction.process c n o ↔
        topicMatch t = some (c, n, o))) := by
  refine ⟨?_, ?_, ?_⟩
  · intro l1 l2 h1 h2
    rw [topicMatch_level l1 _ h1, matchTail_three l2 h2]
    cases h1e : l1.isEmpty <;> cases hall1 : l1.all isWordChar <;>
      cases h2e : l2.isEmpty <;> cases hall2 : l2.all isIdChar <;> simp
  · intro l1 l2 l3 h1 h2 h3
    rw [topicMatch_level l1 _ h1, matchTail_four l2 l3 h2 h3]
    cases h1e : l1.isEmpty <;> cases hall1 : l1.all isWordChar <;>
      cases h2e : l2.isEmpty <;> cases hall2 : l2.all isIdChar <;>
      cases h3e : l3.isEmpty <;> cases hall3 : l3.all isIdChar <;>
      cases hpf : configChars.isPrefixOf l3 <;> simp
  · intro t
    constructor
    · cases hx : topicMatch t with
      | none =>
        by_cases hs : configChars.isSuffixOf t = true
        · simp [async_discovery_message_received_action, hx, hs]
        · simp [async_discovery_message_received_action, hx, hs]
      | some g =>
        obtain ⟨c0, n0, o0⟩ := g
        simp [async_discovery_message_received_action, hx]
    · intro c n o
      cases hx : topicMatch t with
      | none =>
        by_cases hs : configChars.isSuffixOf t = true
        · simp [async_discovery_message_received_action, hx, hs]
        · simp [async_discovery_message_received_action, hx, hs]
      | some g =>
        obtain ⟨c0, n0, o0⟩ := g
        simp [async_discovery_message_received_action, hx]

/-- Counterexample to C2 as stated: the four-level trimmed topic
`a/b/config!x/config` is receivable through the `+/+/+/config`
subscription and does not match either of the claimed whole-topic
shapes (its third level `config!x` contains `!`), yet the handler
processes it — with component `a` and object id `b` — and logs no
warning, because `re.match` accepts a match that ends before the end of
the topic. -/
theorem mqtt_topic_matcher_counterexample :
    topicMatch ("a/b/config!x/config".toList) =
      some ("a".toList, none, "b".toList) ∧
    specTopicShape ("a/b/config!x/config".toList) = false ∧
    async_discovery_message_received_action
        (replaceFirst ("homeassistant/a/b/config!x/config".toList)
          ("homeassistant/".toList)) =
      HandlerAction.process ("a".toList) none ("b".toList) ∧
    configChars.isSuffixOf ("a/b/config!x/config".toList) = true := by
  refine ⟨?_, ?_, ?_, ?_⟩ <;> decide

/-- Closed instance of `mqtt_topic_matcher_amended`: the three-level
topic `a/b/config` is processed with component `a` and object id `b`. -/
theorem mqtt_topic_matcher_amended_witness :
    topicMatch (['a'] ++ '/' :: (['b'] ++ '/' :: configChars)) =
      some (['a'], none, ['b']) :=
  (mqtt_topic_matcher_amended.1 ['a'] ['b'] (by decide) (by decide)).trans (by decide)

/-- C7: setting up a Point config entry raises `ConfigEntryAuthFailed`
exactly when the entry data lacks `auth_implementation` or the token
fetch fails with HTTP 401 or 403; it raises `ConfigEntryNotReady`
exactly when the token fetch fails with any other `ClientResponseError`
status or another `ClientError`; otherwise setup returns `True`. -/
theorem point_setup_entry_error_mapping :
    ∀ (hasAuthImplementation : Bool) (token : TokenFetchResult),
      (async_setup_entry hasAuthImplementation token = .authFailed ↔
        (hasAuthImplementation = false ∨ token = .respError 401 ∨ token = .respError 403)) ∧
      (async_setup_entry hasAuthImplementation token = .notReady ↔
        (hasAuthImplementation = true ∧
          ((∃ s, token = .respError s ∧ s ≠ 401 ∧ s ≠ 403) ∨ token = .clientError))) ∧
      (async_setup_entry hasAuthImplementation token = .success ↔
        (hasAuthImplementation = true ∧ token = .ok)) := by
  intro impl token
  cases impl <;> cases token <;>
    first
      | (rename_i s
         by_cases h1 : s = 401 <;> by_cases h3 : s = 403 <;>
           subst_eqs <;> simp_all [async_setup_entry])
      | simp [async_setup_entry]

theorem process_payload_pending_frame (st : DiscoveryState)
    (component discovery_id : String) (payload : MQTTDiscoveryPayload)
    (h : ahas (component, discovery_id) st.pending = true) :
    (async_process_discovery_payload st component discovery_id payload).1.pending =
      st.pending := by
  simp only [async_process_discovery_payload, h, Bool.not_true, Bool.and_false,
    Bool.false_eq_true, if_false]
  split
  · rfl
  · split
    · rfl
    · split <;> rfl

theorem runPendingQueue_none {P : Type u} (evs : List (PendingEvent P)) :
    runPendingQueue (none : Option (List P)) evs = (none, [], []) := by
  induction evs with
  | nil => rfl
  | cons ev evs ih =>
    cases ev with
    | receive p => exact ih
    | done => exact ih

/-- C1: while a hash has a pending entry, a received payload for it is
appended to the entry's deque with nothing dispatched and processing of
the message stops; each delivery of the DONE signal with a non-empty
deque pops exactly the oldest payload and processes it, keeping the
entry with the shortened deque; a delivery with an empty deque
unsubscribes and removes the entry; and over any event sequence the
payloads processed from the queue are exactly a prefix of the queued
arrivals in arrival order (oldest first). -/
theorem mqtt_pending_queue_fifo :
    (∀ (supported : List String) (st : DiscoveryState) (c : MqttComponentConfig)
        (rest : List MqttComponentConfig) (q : List MQTTDiscoveryPayload),
      aget (component_hash c) st.pending = some q →
      supported.contains c.component = true →
      process_discovered_components supported st (c :: rest) =
        ({ st with
            pending := aset (component_hash c) (payload_after_topic_base c :: q) st.pending },
          [DiscoveryEffect.queuedUpdate (component_hash c)], true)) ∧
    (∀ (st : DiscoveryState) (component discovery_id : String)
        (q : List MQTTDiscoveryPayload) (p : MQTTDiscoveryPayload),
      aget (component, discovery_id) st.pending = some q →
      q.getLast? = some p →
      discovery_done st component discovery_id =
        async_process_discovery_payload
          { st with pending := aset (component, discovery_id) q.dropLast st.pending }
          component discovery_id p ∧
      aget (component, discovery_id)
          (discovery_done st component discovery_id).1.pending = some q.dropLast) ∧
    (∀ (st : DiscoveryState) (component discovery_id : String),
      aget (component, discovery_id) st.pending = some [] →
      discovery_done st component discovery_id =
        ({ st with pending := (apop (component, discovery_id) st.pending).2 },
          [DiscoveryEffect.unsubscribeDone (component, discovery_id)]) ∧
      ((st.pending.map Prod.fst).Nodup →
        ahas (component, discovery_id)
          (discovery_done st component discovery_id).1.pending = false)) ∧
    (∀ (P : Type) (evs : List (PendingEvent P)) (q : List P),
      (runPendingQueue (some q) evs).2.1 ++
          (queueOf (runPendingQueue (some q) evs).1).reverse =
        q.reverse ++ (runPendingQueue (some q) evs).2.2) := by
  refine ⟨?_, ?_, ?_, ?_⟩
  · intro supported st c rest q hq hsupp
    have hmem : c.component ∈ supported := by simpa using hsupp
    simp [process_discovered_components, hsupp, hq, hmem]
  · intro st component discovery_id q p hq hlast
    have hne : q.isEmpty = false := by
      cases q with
      | nil => simp at hlast
      | cons a t => rfl
    have heq : discovery_done st component discovery_id =
        async_process_discovery_payload
          { st with pending := aset (component, discovery_id) q.dropLast st.pending }
          component discovery_id p := by
      simp only [discovery_done, hq, hne, Bool.false_eq_true, if_false, hlast]
    refine ⟨heq, ?_⟩
    rw [heq, process_payload_pending_frame _ _ _ _
      (by rw [ahas, aget_aset_self]; rfl)]
    exact aget_aset_self _ _ _
  · intro st component discovery_id hq
    have heq : discovery_done st component discovery_id =
        ({ st with pending := (apop (component, discovery_id) st.pending).2 },
          [DiscoveryEffect.unsubscribeDone (component, discovery_id)]) := by
      simp [discovery_done, hq]
    refine ⟨heq, fun hnd => ?_⟩
    rw [heq]
    exact ahas_apop_self_of_nodup _ _ hnd
  · intro P evs
    induction evs with
    | nil => intro q; simp [runPendingQueue, queueOf]
    | cons ev evs ih =>
      intro q
      cases ev with
      | receive p =>
        simp only [runPendingQueue]
        rw [ih (p :: q), List.reverse_cons, List.append_assoc, List.singleton_append]
      | done =>
        by_cases hq : q.isEmpty = true
        · obtain rfl : q = [] := List.isEmpty_iff.mp hq
          simp [runPendingQueue, runPendingQueue_none, queueOf]
        · have hne : q ≠ [] := fun he => hq (by rw [he]; rfl)
          rcases List.eq_nil_or_concat q with rfl | ⟨l', b, rfl⟩
          · exact absurd rfl hne
          · simp only [List.concat_eq_append] at hq ⊢
            have hp : (l' ++ [b]).getLast? = some b := List.getLast?_concat _
            simp only [runPendingQueue, hq, Bool.false_eq_true, if_false, hp]
            rw [List.dropLast_concat, List.cons_append, ih l', List.reverse_append,
              List.reverse_singleton, List.singleton_append, List.cons_append]

/-- C10 (amended): when the loop over discovered components, having
processed a first group of components without returning early, meets a
component whose name is not in `SUPPORTED_COMPONENTS`, it logs a
warning and returns immediately, leaving the state exactly as after the
processed group; no component after the unsupported one is queued,
dispatched or recorded.  (As stated the claim can fail: an earlier
component whose hash is pending queues an update and returns before
the unsupported component is reached, so no warning is logged — see the
counterexample.) -/
theorem mqtt_unsupported_component_abort :
    ∀ (supported : List String) (st st1 : DiscoveryState)
      (pre : List MqttComponentConfig) (bad : MqttComponentConfig)
      (post : List MqttComponentConfig) (e1 : List DiscoveryEffect),
      process_discovered_components supported st pre = (st1, e1, false) →
      supported.contains bad.component = false →
      process_discovered_components supported st (pre ++ bad :: post) =
        (st1, e1 ++ [DiscoveryEffect.warnUnsupported bad.component], true) := by
  intro supported st st1 pre bad post e1 h hbad
  revert h
  revert e1
  revert st
  induction pre with
  | nil =>
    intro st e1 h
    simp only [process_discovered_components, Prod.mk.injEq] at h
    obtain ⟨rfl, rfl, -⟩ := h
    have hb2 : bad.component ∉ supported := by simpa using hbad
    simp [process_discovered_components, hb2]
  | cons c pre' ih =>
    intro st e1 h
    simp only [process_discovered_components] at h
    by_cases hsupp : supported.contains c.component = true
    · simp only [hsupp, Bool.not_true, Bool.false_eq_true, if_false] at h
      cases hget : aget (component_hash c) st.pending with
      | some qq =>
        rw [hget] at h
        simp at h
      | none =>
        rw [hget] at h
        simp only [Prod.mk.injEq] at h
        obtain ⟨h1, h2, h3⟩ := h
        simp only [List.cons_append, process_discovered_components, hsupp,
          Bool.not_true, Bool.false_eq_true, if_false, hget]
        have hpre2 : process_discovered_components supported
            (async_process_discovery_payload st c.component
              (discoveryId c.node_id c.object_id) (payload_after_topic_base c)).1 pre' =
            (st1,
              (process_discovered_components supported
                (async_process_discovery_payload st c.component
                  (discoveryId c.node_id c.object_id) (payload_after_topic_base c)).1
                pre').2.1,
              false) :=
          Prod.ext h1 (Prod.ext rfl h3)
        simp only [List.append_eq]
        rw [ih _ _ hpre2, ← h2, List.append_assoc]
    · have hbad2 : supported.contains c.component = false := by
        cases hx : supported.contains c.component with
        | false => rfl
        | true => exact absurd hx hsupp
      rw [hbad2] at h
      simp at h

/-- Counterexample to C10 as stated: the state has a pending entry for
the hash of the first (supported) component, so the handler queues its
update and returns before reaching the second component `nope`, which
is not supported; the effects contain no warning even though an
unsupported component was listed. -/
theorem mqtt_unsupported_component_counterexample :
    (process_discovered_components ["sensor"]
        ⟨[(("sensor", "o c1"), [])], [], []⟩
        [⟨"sensor", "c1", some "o", ⟨[("name", MqttVal.str "x")], true⟩⟩,
          ⟨"nope", "c2", some "o", ⟨[], false⟩⟩]).2.1 =
      [DiscoveryEffect.queuedUpdate ("sensor", "o c1")] ∧
    DiscoveryEffect.warnUnsupported "nope" ∉
      [DiscoveryEffect.queuedUpdate ("sensor", "o c1")] ∧
    "nope" ∉ (["sensor"] : List String) := by
  refine ⟨rfl, by simp, by decide⟩

/-- Closed instance of `mqtt_unsupported_component_abort`: a lone
unsupported component yields exactly the warning and an early return. -/
theorem mqtt_unsupported_component_abort_witness :
    process_discovered_components ["sensor"] ⟨[], [], []⟩
        [⟨"nope", "c2", some "o", ⟨[], false⟩⟩] =
      (⟨[], [], []⟩, [DiscoveryEffect.warnUnsupported "nope"], true) :=
  mqtt_unsupported_component_abort ["sensor"] ⟨[], [], []⟩ ⟨[], [], []⟩ []
    ⟨"nope", "c2", some "o", ⟨[], false⟩⟩ [] [] rfl rfl

/-- Closed instance of `mqtt_pending_queue_fifo`: a DONE delivery on a
two-element deque pops the oldest payload and keeps the entry with the
newer one. -/
theorem mqtt_pending_queue_fifo_witness :
    aget ("sensor", "oid")
        (discovery_done
          ⟨[(("sensor", "oid"),
              [⟨[("name", MqttVal.str "b")], false⟩,
                ⟨[("name", MqttVal.str "a")], false⟩])],
            [], []⟩ "sensor" "oid").1.pending =
      some [⟨[("name", MqttVal.str "b")], false⟩] :=
  (mqtt_pending_queue_fifo.2.1
      ⟨[(("sensor", "oid"),
          [⟨[("name", MqttVal.str "b")], false⟩,
            ⟨[("name", MqttVal.str "a")], false⟩])],
        [], []⟩ "sensor" "oid"
      [⟨[("name", MqttVal.str "b")], false⟩, ⟨[("name", MqttVal.str "a")], false⟩]
      ⟨[("name", MqttVal.str "a")], false⟩ rfl rfl).2

/-- Closed instance of `point_setup_entry_error_mapping`: a 403 response
during token fetch raises `ConfigEntryAuthFailed`. -/
theorem point_setup_entry_error_mapping_witness :
    async_setup_entry true (.respError 403) = .authFailed :=
  (point_setup_entry_error_mapping true (.respError 403)).1.mpr
    (Or.inr (Or.inr rfl))

/-- Closed instance of `point_sync_failure_and_success`: after a failed
sync every device reads as unavailable. -/
theorem point_sync_failure_and_success_witness :
    MinutPointClient_is_available
      (MinutPointClient_sync ⟨["h1"], ["d1"], true⟩ false ["h1"] ["d1"]).1
      ["d1"] "d1" = false :=
  (point_sync_failure_and_success ⟨["h1"], ["d1"], true⟩ ["h1"] ["d1"]).1.2.1 ["d1"] "d1"

end HassCore
